import Mathlib

/-!
# ipti: CSV ingest / dump over a prolly-tree indexer (`main.go`)

A shallow embedding of `valueAsString`, `mapKeys`, `Dump`, `ingestCSV` and `Ingest`.

The collaborators that `main.go` imports are not part of the program and are represented
as follows.

* The indexer database, the CAR block store and the CID parser are fields of `Backend`,
  deterministic functions over an abstract world state `σ`; each may fail.
* `dagjson.Decode` is the field `Backend.decode`.
* `encoding/csv`: the reader is given the records of the input as its line parser yields
  them (`RawRecord`), and `Reader.Read` applies the field-count rule of
  `csv.Reader.FieldsPerRecord`; the writer is a `Sink` that stores rows and may fail.
* `go-ipld-prime` nodes are the datatype `Node`; the `basicnode` map assembler behind
  `qp.BuildMap` is `MapAssembler`, which rejects a repeated key.
* `strconv.Itoa` and `base64.RawURLEncoding` are written out over `Int` and bytes.

Go's `int` is taken to be 64 bits wide (`intSize`), as on every 64-bit target.
-/

namespace Ipti

/-! ## Values -/

/-- One byte. -/
abbrev Byte := Fin 256

/-- A content identifier, kept as its textual form. -/
structure Cid where
  text : String
deriving DecidableEq, Repr

/-- Kinds of the IPLD data model (`datamodel.Kind`). -/
inductive Kind where
  | Map | List | Null | Bool | Int | Float | String | Bytes | Link
deriving DecidableEq, Repr

/-- Errors raised by the `encoding/csv` reader for one record. -/
inductive CsvError where
  | bareQuote
  | quote
  | fieldCount
  | read (msg : String)
deriving DecidableEq, Repr

/-- Error values that flow through `main.go`. A Go `panic` is kept apart from returned
errors by the constructor `panic`. -/
inductive Err where
  | eof
  | csv (e : CsvError)
  | repeatedMapKey (key : String)
  | notExists (key : String)
  | wrongKind (kind : Kind)
  | unableToConvert (kind : Kind)
  | uintOutOfRange
  | collaborator (msg : String)
  | panic (msg : String)
deriving DecidableEq, Repr

/-- Whether the value stands for a Go panic rather than a returned error. -/
def Err.isPanic : Err → Bool
  | .panic _ => true
  | _ => false

/-- An IPLD node. An Integer node is either backed by an `int64` (`int`) or by a `uint64`
(`uint`, the node of `basicnode.NewUint`, which a dag-cbor decode yields for an integer
above `math.MaxInt64`); floats carry their 64 bit pattern. -/
inductive Node where
  | null
  | bool (b : Bool)
  | int (i : Int)
  | uint (u : Nat)
  | float (bits : Nat)
  | string (s : String)
  | bytes (b : List Byte)
  | list (xs : List Node)
  | map (entries : List (String × Node))
  | link (c : Cid)

/-- The method `Node.Kind()`. -/
def Node.Kind : Node → Kind
  | .null => .Null
  | .bool _ => .Bool
  | .int _ => .Int
  | .uint _ => .Int
  | .float _ => .Float
  | .string _ => .String
  | .bytes _ => .Bytes
  | .list _ => .List
  | .map _ => .Map
  | .link _ => .Link

/-- The method `Node.AsString()`. -/
def Node.AsString : Node → Except Err String
  | .string s => .ok s
  | n => .error (.wrongKind n.Kind)

/-- The method `Node.AsInt()`. On a `uint64`-backed Integer node it fails when the value is
above `math.MaxInt64`. -/
def Node.AsInt : Node → Except Err Int
  | .int i => .ok i
  | .uint u => if u ≤ 9223372036854775807 then .ok u else .error .uintOutOfRange
  | n => .error (.wrongKind n.Kind)

/-- Search of an entry list by key, as the `basicnode` map does through its key table. -/
def lookupEntry (key : String) : List (String × Node) → Option Node
  | [] => none
  | (k, v) :: rest => if k = key then some v else lookupEntry key rest

/-- The method `Node.LookupByString(key)`: the value stored under `key` in a map, the error
`ErrNotExists` when the map has no such key, `ErrWrongKind` on any other node. -/
def Node.LookupByString (n : Node) (key : String) : Except Err Node :=
  match n with
  | .map entries =>
    match lookupEntry key entries with
    | some v => .ok v
    | none => .error (.notExists key)
  | other => .error (.wrongKind other.Kind)

/-- A record as `Collection.Search` yields it. -/
structure Record where
  Id : List Byte
  Data : Node

/-! ## Machine integers and `strconv` -/

/-- Width of Go's `int` (`strconv.IntSize`) on a 64-bit target. -/
def intSize : Nat := 64

/-- Reduction of an integer to the signed two's complement range of `w` bits. -/
def wrapSigned (w : Nat) (v : Int) : Int :=
  (v + 2 ^ (w - 1)) % 2 ^ w - 2 ^ (w - 1)

/-- The conversion `int(value)` of an `int64`. -/
def toGoInt (v : Int) : Int := wrapSigned intSize v

/-- The conversion `int64(index)` of an `int`. -/
def toInt64 (v : Int) : Int := wrapSigned 64 v

/-- The function `strconv.Itoa`: decimal digits, with a leading minus sign below zero. -/
def Itoa (i : Int) : String :=
  if i < 0 then "-" ++ Nat.repr i.natAbs else Nat.repr i.natAbs

/-! ## `valueAsString` and `mapKeys` -/

/-- The function `valueAsString`. -/
def valueAsString (valueNode : Node) : Except Err String :=
  let kind := valueNode.Kind
  if kind = Kind.String then
    valueNode.AsString
  else if kind = Kind.Int then
    match valueNode.AsInt with
    | .error err => .error err
    | .ok value => .ok (Itoa (toGoInt value))
  else
    .error (.unableToConvert kind)

/-- The loop of `mapKeys` over a map iterator: `keys = append(keys, key)` for each entry. -/
def mapKeysLoop : List (String × Node) → List String → List String
  | [], keys => keys
  | (key, _) :: iterator, keys => mapKeysLoop iterator (keys ++ [key])

/-- The function `mapKeys`. On a node that is not a map `MapIterator()` is nil and the call
`iterator.Done()` panics. -/
def mapKeys (node : Node) : Except Err (List String) :=
  match node with
  | .map entries => .ok (mapKeysLoop entries [])
  | _ => .error (.panic "nil pointer dereference")

/-! ## `base64.RawURLEncoding` -/

/-- The alphabet `encodeURL` of `encoding/base64`. -/
def encodeURL : List Char :=
  "ABCDEFGHIJKLMNOPQRSTUVWXYZabcdefghijklmnopqrstuvwxyz0123456789-_".toList

/-- The alphabet entry `enc.encode[i]`. -/
def encodeChar (i : Nat) : Char := encodeURL.getD i 'A'

/-- The encoder `Encoding.Encode` without padding: three bytes give four characters, a
remainder of two bytes gives three, a remainder of one byte gives two. -/
def encodeBytes : List Byte → List Char
  | a :: b :: c :: rest =>
    let val := a.val * 65536 + b.val * 256 + c.val
    encodeChar (val / 262144 % 64) :: encodeChar (val / 4096 % 64) ::
      encodeChar (val / 64 % 64) :: encodeChar (val % 64) :: encodeBytes rest
  | [a, b] =>
    let val := a.val * 65536 + b.val * 256
    [encodeChar (val / 262144 % 64), encodeChar (val / 4096 % 64), encodeChar (val / 64 % 64)]
  | [a] =>
    let val := a.val * 65536
    [encodeChar (val / 262144 % 64), encodeChar (val / 4096 % 64)]
  | [] => []

/-- The call `base64.RawURLEncoding.EncodeToString`. -/
def EncodeToString (src : List Byte) : String := String.mk (encodeBytes src)

/-- The table `enc.decodeMap`: position of a character in the alphabet. -/
def decodeChar (c : Char) : Option Nat :=
  let i := encodeURL.indexOf c
  if i < 64 then some i else none

/-- The byte `byte(v)` of an unsigned value. -/
def toByte (v : Nat) : Byte := ⟨v % 256, Nat.mod_lt _ (by decide)⟩

/-- The decoder of `base64.RawURLEncoding`: quanta of four characters give three bytes, a
final group of three characters gives two, of two gives one; a single left-over character
or a character outside the alphabet (the padding character included) is an error. -/
def decodeChars : List Char → Option (List Byte)
  | c0 :: c1 :: c2 :: c3 :: rest =>
    match decodeChar c0, decodeChar c1, decodeChar c2, decodeChar c3, decodeChars rest with
    | some s0, some s1, some s2, some s3, some tail =>
      let val := s0 * 262144 + s1 * 4096 + s2 * 64 + s3
      some (toByte (val / 65536) :: toByte (val / 256) :: toByte val :: tail)
    | _, _, _, _, _ => none
  | [c0, c1, c2] =>
    match decodeChar c0, decodeChar c1, decodeChar c2 with
    | some s0, some s1, some s2 =>
      let val := s0 * 262144 + s1 * 4096 + s2 * 64
      some [toByte (val / 65536), toByte (val / 256)]
    | _, _, _ => none
  | [c0, c1] =>
    match decodeChar c0, decodeChar c1 with
    | some s0, some s1 =>
      let val := s0 * 262144 + s1 * 4096
      some [toByte (val / 65536)]
    | _, _ => none
  | [_] => none
  | [] => some []

/-- The call `base64.RawURLEncoding.DecodeString`. -/
def DecodeString (s : String) : Option (List Byte) := decodeChars s.data


/-! ## Collaborators -/

/-- One record of the CSV input as the line parser of `csv.Reader` yields it, before the
field-count rule: its fields and the parse or read error of the line, if any. -/
structure RawRecord where
  fields : List String
  err : Option CsvError

/-- The database, block store, CID and codec collaborators over a world state `σ`. -/
structure Backend (σ : Type) where
  /-- The call `cid.Decode`. -/
  decodeCid : String → Except Err Cid
  /-- The call `carBlockstore.OpenReadWrite(path, roots)`. -/
  openReadWrite : String → List Cid → Except Err σ
  /-- The call `indexer.NewDatabaseFromBlockStore`. -/
  newDatabaseFromBlockStore : σ → Except Err σ
  /-- The call `indexer.ImportFromFile`. -/
  importFromFile : String → Except Err σ
  /-- The call `db.Collection(ctx, name)`. -/
  collection : σ → String → Except Err σ
  /-- The call `collection.Search(ctx, indexer.Query{})`, its channel drained into a list. -/
  search : σ → Except Err (List Record)
  /-- The call `collection.CreateIndex(ctx, field)`. -/
  createIndex : σ → String → Except Err σ
  /-- The call `collection.Insert(ctx, node)`. -/
  insert : σ → Node → Except Err σ
  /-- The call `db.ApplyChanges(ctx)`. -/
  applyChanges : σ → Except Err σ
  /-- The call `db.RootCid()`. -/
  rootCid : σ → Cid
  /-- The call `blockstore.Finalize()`. -/
  finalize : σ → Except Err σ
  /-- The call `car.ReplaceRootsInFile(path, roots)`. -/
  replaceRootsInFile : σ → String → List Cid → Except Err σ
  /-- The call `dagjson.Decode` on the text of one cell. -/
  decode : String → Except Err Node

/-- The output of `Dump` behind its `csv.Writer`: given the rows accepted so far and the
next row, the error with which `writer.Write` fails, if it does. -/
structure Sink where
  fault : List (List String) → List String → Option Err

/-! ## `Dump` -/

/-- The variables of the loop of `Dump`, with the rows written so far. -/
structure DumpVars where
  columns : List String
  rowSize : Nat
  first : Bool
  written : List (List String)

/-- What a run of `Dump` leaves behind: the error returned (`none` for `nil`), the last
value of `columns`, and the rows written, which the deferred `writer.Flush()` hands to the
output on every return path. -/
structure DumpResult where
  err : Option Err
  columns : List String
  rows : List (List String)

/-- The inner loop of `Dump` over `columns`, from position `column` on: look the key up in
the record, convert the value, store it in `row[column]`. -/
def fillRow (data : Node) : List String → Nat → List String → Except Err (List String)
  | [], _, row => .ok row
  | key :: columns, column, row =>
    match data.LookupByString key with
    | .error err => .error err
    | .ok valueNode =>
      match valueAsString valueNode with
      | .error err => .error err
      | .ok value => fillRow data columns (column + 1) (row.set column value)

/-- The block `if first { ... }` of `Dump`. -/
def dumpFirst (output : Sink) (appendId : Bool) (id : String) (record : Record)
    (vars : DumpVars) : Option Err × DumpVars :=
  if vars.first then
    match mapKeys record.Data with
    | .error err => (some err, { vars with first := false })
    | .ok columns =>
      let headers := if appendId then columns ++ [id] else columns
      let rowSize := if appendId then columns.length + 1 else columns.length
      let vars := { vars with first := false, columns := columns, rowSize := rowSize }
      match output.fault vars.written headers with
      | some err => (some err, vars)
      | none => (none, { vars with written := vars.written ++ [headers] })
  else
    (none, vars)

/-- The loop `for record := range records` of `Dump`. -/
def dumpRecords (output : Sink) (appendId : Bool) (id : String) :
    List Record → DumpVars → DumpResult
  | [], vars => ⟨none, vars.columns, vars.written⟩
  | record :: records, vars =>
    match dumpFirst output appendId id record vars with
    | (some err, vars) => ⟨some err, vars.columns, vars.written⟩
    | (none, vars) =>
      match fillRow record.Data vars.columns 0 (List.replicate vars.rowSize "") with
      | .error err => ⟨some err, vars.columns, vars.written⟩
      | .ok row =>
        let row := if appendId then row.set (vars.rowSize - 1) (EncodeToString record.Id) else row
        match output.fault vars.written row with
        | some err => ⟨some err, vars.columns, vars.written⟩
        | none => dumpRecords output appendId id records { vars with written := vars.written ++ [row] }

/-- The function `Dump`. -/
def Dump {σ : Type} (B : Backend σ) (output : Sink) (input : String) (collectionName : String)
    (id : String) : DumpResult :=
  let appendId := id.length != 0
  match B.importFromFile input with
  | .error err => ⟨some err, [], []⟩
  | .ok db =>
    match B.collection db collectionName with
    | .error err => ⟨some err, [], []⟩
    | .ok collection =>
      match B.search collection with
      | .error err => ⟨some err, [], []⟩
      | .ok records => dumpRecords output appendId id records ⟨[], 0, true, []⟩

/-! ## `encoding/csv` reader -/

/-- A `csv.Reader`: the records not yet read and the field `FieldsPerRecord`. -/
structure Reader where
  pending : List RawRecord
  FieldsPerRecord : Nat

/-- The call `csv.NewReader`: `FieldsPerRecord` starts at zero. -/
def NewReader (source : List RawRecord) : Reader := ⟨source, 0⟩

/-- The method `Reader.Read`. At the end of the input it returns `io.EOF`. Otherwise it
takes the next record; when `FieldsPerRecord` is positive a record of another length that
has no error of its own gets `ErrFieldCount`, and when it is zero it is set to the length
of this record. -/
def Reader.Read (r : Reader) : Except Err (List String) × Reader :=
  match r.pending with
  | [] => (.error .eof, r)
  | raw :: rest =>
    let err : Option CsvError :=
      if r.FieldsPerRecord > 0 then
        if raw.fields.length != r.FieldsPerRecord && raw.err.isNone then some .fieldCount
        else raw.err
      else raw.err
    let fieldsPerRecord :=
      if r.FieldsPerRecord > 0 then r.FieldsPerRecord else raw.fields.length
    match err with
    | some e => (.error (.csv e), ⟨rest, fieldsPerRecord⟩)
    | none => (.ok raw.fields, ⟨rest, fieldsPerRecord⟩)

/-! ## `qp.BuildMap` over the `basicnode` map -/

/-- The entries a `basicnode` map assembler has taken so far, in order. -/
abbrev MapAssembler := List (String × Node)

/-- The call `qp.MapEntry(ma, k, v)`: `AssembleEntry` fails with `ErrRepeatedMapKey` when the
key is already there, otherwise the entry is appended. -/
def MapEntry (ma : MapAssembler) (k : String) (v : Node) : Except Err MapAssembler :=
  if ma.any (fun e => e.1 == k) then .error (.repeatedMapKey k) else .ok (ma ++ [(k, v)])

/-- The call `qp.BuildMap(basicnode.Prototype.Any, sizeHint, fn)`: the size hint only
reserves space; what is raised inside `fn` comes back as the error of the call, the
runtime error of an out-of-range index (kept under `Err.panic`) included. -/
def BuildMap (_sizeHint : Int) (fn : MapAssembler → Except Err MapAssembler) : Except Err Node :=
  match fn [] with
  | .error err => .error err
  | .ok ma => .ok (.map ma)

/-! ## `ingestCSV` and `Ingest` -/

/-- The loop `for fieldIndex, fieldValue := range record` inside the builder function of
`ingestCSV`, from position `fieldIndex` on. The index expression `headers[fieldIndex]`
panics when out of range. -/
def assembleFields (decode : String → Except Err Node) (headers : List String) :
    List String → Nat → MapAssembler → Except Err MapAssembler
  | [], _, ma => .ok ma
  | fieldValue :: record, fieldIndex, ma =>
    match decode fieldValue with
    | .error _ =>
      match headers[fieldIndex]? with
      | none => .error (.panic "index out of range")
      | some header =>
        match MapEntry ma header (.string fieldValue) with
        | .error err => .error err
        | .ok ma => assembleFields decode headers record (fieldIndex + 1) ma
    | .ok value =>
      match headers[fieldIndex]? with
      | none => .error (.panic "index out of range")
      | some header =>
        match MapEntry ma header value with
        | .error err => .error err
        | .ok ma => assembleFields decode headers record (fieldIndex + 1) ma

/-- The builder function handed to `qp.BuildMap` in `ingestCSV`. -/
def assembleRecord (decode : String → Except Err Node) (headers : List String)
    (addRowIndex : Bool) (index : Int) (record : List String) (ma : MapAssembler) :
    Except Err MapAssembler :=
  if addRowIndex then
    match MapEntry ma "index" (.int (toInt64 index)) with
    | .error err => .error err
    | .ok ma => assembleFields decode headers record 0 ma
  else
    assembleFields decode headers record 0 ma

/-- What a run of `ingestCSV` leaves behind: the error returned, the nodes handed to
`collection.Insert` in call order (the last one is the failing call when the error is that
of an insert), and the world state. -/
structure CsvResult (σ : Type) where
  err : Option Err
  inserts : List Node
  state : σ

/-- The loop `for { record, err := reader.Read() ... }` of `ingestCSV`, by recursion on the
records the reader still holds; the reader state passed on is the one `Read` returns. With
nothing left to read `Read` returns `io.EOF` and the loop breaks. The counter `index` is a
Go `int`, converted with `int64(index)` for the entry and incremented after each insert. -/
def ingestLoop {σ : Type} (B : Backend σ) (headers : List String) (numFields : Int)
    (addRowIndex : Bool) : List RawRecord → Nat → Int → σ → CsvResult σ
  | [], _, _, collection => ⟨none, [], collection⟩
  | raw :: rest, fieldsPerRecord, index, collection =>
    match (Reader.Read ⟨raw :: rest, fieldsPerRecord⟩) with
    | (.error err, _) =>
      if err = .eof then ⟨none, [], collection⟩ else ⟨some err, [], collection⟩
    | (.ok record, reader) =>
      match BuildMap numFields (assembleRecord B.decode headers addRowIndex index record) with
      | .error err => ⟨some err, [], collection⟩
      | .ok node =>
        match B.insert collection node with
        | .error err => ⟨some err, [node], collection⟩
        | .ok collection =>
          let r := ingestLoop B headers numFields addRowIndex rest reader.FieldsPerRecord
            (toGoInt (index + 1)) collection
          ⟨r.err, node :: r.inserts, r.state⟩

/-- The function `ingestCSV`. The source computes `numFields` before it checks the error of
the header read; the value is used only after the check. -/
def ingestCSV {σ : Type} (B : Backend σ) (source : List RawRecord) (collection : σ)
    (addRowIndex : Bool) : CsvResult σ :=
  match (NewReader source).Read with
  | (.error err, _) => ⟨some err, [], collection⟩
  | (.ok headers, reader) =>
    let numFields : Int := if addRowIndex then (headers.length : Int) + 1 else headers.length
    ingestLoop B headers numFields addRowIndex reader.pending reader.FieldsPerRecord 0 collection

/-- The constant `EMPTY_DB_ROOT`. -/
def EMPTY_DB_ROOT : String := "bafyrefczokuljxpuzx3ivzun5p5jdfnfdj3qzqq"

/-- A call made by `Ingest` to the block store, the database or the archive file. -/
inductive Call where
  | openReadWrite (path : String) (roots : List Cid)
  | newDatabaseFromBlockStore
  | collection (name : String)
  | createIndex (field : String)
  | insert (node : Node)
  | applyChanges
  | rootCid
  | finalize
  | replaceRootsInFile (path : String) (roots : List Cid)

/-- What a run of `Ingest` leaves behind: the error returned, the calls made in order, the
root list in the header of the archive (`none` while no archive was opened and after a
failed rewrite), and the lines printed. -/
structure IngestResult where
  err : Option Err
  calls : List Call
  header : Option (List Cid)
  printed : List Cid

/-- The function `Ingest`. -/
def Ingest {σ : Type} (B : Backend σ) (output : String) (reader : List RawRecord)
    (collectionName : String) (addRowIndex : Bool) : IngestResult :=
  match B.decodeCid EMPTY_DB_ROOT with
  | .error err => ⟨some err, [], none, []⟩
  | .ok defaultCid =>
    let calls := [Call.openReadWrite output [defaultCid]]
    match B.openReadWrite output [defaultCid] with
    | .error err => ⟨some err, calls, none, []⟩
    | .ok blockstore =>
      let header := some [defaultCid]
      let calls := calls ++ [Call.newDatabaseFromBlockStore]
      match B.newDatabaseFromBlockStore blockstore with
      | .error err => ⟨some err, calls, header, []⟩
      | .ok db =>
        let calls := calls ++ [Call.collection collectionName]
        match B.collection db collectionName with
        | .error err => ⟨some err, calls, header, []⟩
        | .ok collection =>
          let calls := if addRowIndex then calls ++ [Call.createIndex "index"] else calls
          match (if addRowIndex then B.createIndex collection "index" else .ok collection) with
          | .error err => ⟨some err, calls, header, []⟩
          | .ok collection =>
            let r := ingestCSV B reader collection addRowIndex
            let calls := calls ++ r.inserts.map Call.insert
            match r.err with
            | some err => ⟨some err, calls, header, []⟩
            | none =>
              let calls := calls ++ [Call.applyChanges]
              match B.applyChanges r.state with
              | .error err => ⟨some err, calls, header, []⟩
              | .ok db =>
                let finalCid := B.rootCid db
                let calls := calls ++ [Call.rootCid, Call.finalize]
                match B.finalize db with
                | .error err => ⟨some err, calls, header, []⟩
                | .ok db =>
                  let calls := calls ++ [Call.replaceRootsInFile output [finalCid]]
                  match B.replaceRootsInFile db output [finalCid] with
                  | .error err => ⟨some err, calls, none, []⟩
                  | .ok _ => ⟨none, calls, some [finalCid], [finalCid]⟩

/-! ## Reference functions used to state the properties -/

/-- The typing rule for one cell in the words of the specification: the decoded value when
decoding succeeds, the raw text as a string when it fails. -/
def typedValue (decode : String → Except Err Node) (text : String) : Node :=
  match decode text with
  | .ok value => value
  | .error _ => .string text

/-- The key sequence the specification gives to every record of one ingestion run. -/
def recordKeys (headers : List String) (addRowIndex : Bool) : List String :=
  if addRowIndex then "index" :: headers else headers

/-- The texts of a record under a column list in the words of the specification: each
column is looked up by key and converted, the first failure being the result. -/
def convertColumns (data : Node) : List String → Except Err (List String)
  | [] => .ok []
  | key :: columns =>
    match data.LookupByString key with
    | .error err => .error err
    | .ok valueNode =>
      match valueAsString valueNode with
      | .error err => .error err
      | .ok value =>
        match convertColumns data columns with
        | .error err => .error err
        | .ok values => .ok (value :: values)

/-- The data row of a record in the words of the specification: the converted columns,
then the encoded identifier when the id column is requested. -/
def dataRow (columns : List String) (appendId : Bool) (record : Record) :
    Except Err (List String) :=
  match convertColumns record.Data columns with
  | .error err => .error err
  | .ok values => .ok (if appendId then values ++ [EncodeToString record.Id] else values)

/-- The header row in the words of the specification: the columns, then the id column
name when one is requested. -/
def headerRow (columns : List String) (id : String) : List String :=
  if id = "" then columns else columns ++ [id]

/-- Successive calls of `collection.Insert`, stopping at the first error. -/
def insertAll {σ : Type} (B : Backend σ) : σ → List Node → Except Err σ
  | collection, [] => .ok collection
  | collection, node :: nodes =>
    match B.insert collection node with
    | .error err => .error err
    | .ok collection => insertAll B collection nodes

/-- State of the in-memory backend: the records a scan yields and the nodes inserted. -/
structure Mem where
  stored : List Record
  inserted : List Node

/-- A decoder that knows a few literals and rejects every other text. -/
def sampleDecode (text : String) : Except Err Node :=
  if text = "37" then .ok (.int 37)
  else if text = "34" then .ok (.int 34)
  else if text = "true" then .ok (.bool true)
  else .error (.collaborator "invalid character")

/-- An in-memory backend: a scan yields `stored`, inserts are appended, `ApplyChanges`
fails with `applyErr` when given, and the root names the number of inserted nodes. -/
def memBackend (stored : List Record) (applyErr : Option Err) : Backend Mem where
  decodeCid := fun s => .ok ⟨s⟩
  openReadWrite := fun _ _ => .ok ⟨stored, []⟩
  newDatabaseFromBlockStore := fun m => .ok m
  importFromFile := fun _ => .ok ⟨stored, []⟩
  collection := fun m _ => .ok m
  search := fun m => .ok m.stored
  createIndex := fun m _ => .ok m
  insert := fun m node => .ok { m with inserted := m.inserted ++ [node] }
  applyChanges := fun m =>
    match applyErr with
    | some e => .error e
    | none => .ok m
  rootCid := fun m => ⟨"root" ++ Nat.repr m.inserted.length⟩
  finalize := fun m => .ok m
  replaceRootsInFile := fun m _ _ => .ok m
  decode := sampleDecode

/-- A sink that accepts every row. -/
def okSink : Sink := ⟨fun _ _ => none⟩

/-- The input `name,age / Ada,37 / Grace,34`. -/
def sampleCsv : List RawRecord :=
  [⟨["name", "age"], none⟩, ⟨["Ada", "37"], none⟩, ⟨["Grace", "34"], none⟩]

/-- Two records with the keys `name` and `age`, then one without `age`. -/
def sampleRecords : List Record :=
  [⟨[⟨1, by decide⟩], .map [("name", .string "Ada"), ("age", .int 37)]⟩,
   ⟨[⟨2, by decide⟩, ⟨255, by decide⟩], .map [("name", .string "Grace"), ("age", .int 34)]⟩,
   ⟨[⟨3, by decide⟩], .map [("name", .string "Alan")]⟩]
/-! ## Facts about the base64 model -/


theorem decodeChar_encodeChar (i : Nat) (h : i < 64) : decodeChar (encodeChar i) = some i := by
  have key : ∀ j : Fin 64, decodeChar (encodeChar j.val) = some j.val := by decide
  exact key ⟨i, h⟩

theorem encodeChar_mem (i : Nat) (h : i < 64) : encodeChar i ∈ encodeURL := by
  have key : ∀ j : Fin 64, encodeChar j.val ∈ encodeURL := by decide
  exact key ⟨i, h⟩

theorem toByte_val (a : Byte) (v : Nat) (h : v % 256 = a.val) : toByte v = a := by
  apply Fin.ext
  simpa [toByte] using h

theorem decodeChars_encodeBytes : ∀ (src : List Byte), decodeChars (encodeBytes src) = some src
  | a :: b :: c :: rest => by
    have ih := decodeChars_encodeBytes rest
    have ha := a.isLt
    have hb := b.isLt
    have hc := c.isLt
    simp only [encodeBytes, decodeChars]
    rw [decodeChar_encodeChar _ (Nat.mod_lt _ (by decide)),
      decodeChar_encodeChar _ (Nat.mod_lt _ (by decide)),
      decodeChar_encodeChar _ (Nat.mod_lt _ (by decide)),
      decodeChar_encodeChar _ (Nat.mod_lt _ (by decide)), ih]
    simp only [Option.some.injEq, List.cons.injEq, and_true]
    refine ⟨toByte_val _ _ ?_, toByte_val _ _ ?_, toByte_val _ _ ?_⟩ <;> omega
  | [a, b] => by
    have ha := a.isLt
    have hb := b.isLt
    simp only [encodeBytes, decodeChars]
    rw [decodeChar_encodeChar _ (Nat.mod_lt _ (by decide)),
      decodeChar_encodeChar _ (Nat.mod_lt _ (by decide)),
      decodeChar_encodeChar _ (Nat.mod_lt _ (by decide))]
    simp only [Option.some.injEq, List.cons.injEq, and_true]
    refine ⟨toByte_val _ _ ?_, toByte_val _ _ ?_⟩ <;> omega
  | [a] => by
    have ha := a.isLt
    simp only [encodeBytes, decodeChars]
    rw [decodeChar_encodeChar _ (Nat.mod_lt _ (by decide)),
      decodeChar_encodeChar _ (Nat.mod_lt _ (by decide))]
    simp only [Option.some.injEq, List.cons.injEq, and_true]
    refine toByte_val _ _ ?_
    omega
  | [] => by simp [encodeBytes, decodeChars]

theorem encodeBytes_mem : ∀ (src : List Byte) (ch : Char), ch ∈ encodeBytes src → ch ∈ encodeURL
  | a :: b :: c :: rest, ch, h => by
    simp only [encodeBytes, List.mem_cons] at h
    rcases h with h | h | h | h | h
    · exact h ▸ encodeChar_mem _ (Nat.mod_lt _ (by decide))
    · exact h ▸ encodeChar_mem _ (Nat.mod_lt _ (by decide))
    · exact h ▸ encodeChar_mem _ (Nat.mod_lt _ (by decide))
    · exact h ▸ encodeChar_mem _ (Nat.mod_lt _ (by decide))
    · exact encodeBytes_mem rest ch h
  | [a, b], ch, h => by
    simp only [encodeBytes, List.mem_cons, List.mem_singleton, List.not_mem_nil, or_false] at h
    rcases h with h | h | h
    · exact h ▸ encodeChar_mem _ (Nat.mod_lt _ (by decide))
    · exact h ▸ encodeChar_mem _ (Nat.mod_lt _ (by decide))
    · exact h ▸ encodeChar_mem _ (Nat.mod_lt _ (by decide))
  | [a], ch, h => by
    simp only [encodeBytes, List.mem_cons, List.mem_singleton, List.not_mem_nil, or_false] at h
    rcases h with h | h
    · exact h ▸ encodeChar_mem _ (Nat.mod_lt _ (by decide))
    · exact h ▸ encodeChar_mem _ (Nat.mod_lt _ (by decide))
  | [], ch, h => by simp [encodeBytes] at h

theorem padding_not_in_alphabet : '=' ∉ encodeURL := by decide


/-! ## `valueAsString` -/

theorem wrapSigned_of_int64 (v : Int) (lo : -2 ^ 63 ≤ v) (hi : v < 2 ^ 63) :
    wrapSigned 64 v = v := by
  unfold wrapSigned
  norm_num
  omega

theorem toGoInt_of_int64 (v : Int) (lo : -2 ^ 63 ≤ v) (hi : v < 2 ^ 63) : toGoInt v = v :=
  wrapSigned_of_int64 v lo hi

theorem Itoa_eq_toString (i : Int) : Itoa i = toString i := by
  cases i with
  | ofNat n =>
    have h : ¬ ((Int.ofNat n) < 0) := by simp
    simp only [Itoa, h, if_false]
    rfl
  | negSucc n =>
    have h : (Int.negSucc n) < 0 := Int.negSucc_lt_zero n
    simp only [Itoa, h, if_true]
    rfl

theorem valueAsString_int (i : Int) (lo : -2 ^ 63 ≤ i) (hi : i < 2 ^ 63) :
    valueAsString (.int i) = .ok (Itoa i) := by
  simp [valueAsString, Node.Kind, Node.AsInt, toGoInt_of_int64 i lo hi]

theorem valueAsString_uint (u : Nat) :
    valueAsString (.uint u) =
      if u ≤ 9223372036854775807 then .ok (Itoa u) else .error .uintOutOfRange := by
  by_cases h : u ≤ 9223372036854775807
  · have hw : toGoInt (u : Int) = u := toGoInt_of_int64 _ (by omega) (by omega)
    simp [valueAsString, Node.Kind, Node.AsInt, h, hw]
  · simp [valueAsString, Node.Kind, Node.AsInt, h]

theorem valueAsString_not_panic (n : Node) (e : Err) (h : valueAsString n = .error e) :
    e.isPanic = false := by
  cases n with
  | uint u =>
    rw [valueAsString_uint] at h
    split at h
    · simp at h
    · simp only [Except.error.injEq] at h
      subst h
      rfl
  | _ =>
    simp [valueAsString, Node.Kind, Node.AsString, Node.AsInt] at h <;>
      (subst h; rfl)

/-- On an Integer node `AsInt` fails exactly on a `uint64`-backed node above
`math.MaxInt64`. -/
theorem AsInt_fails_iff (n : Node) (hk : n.Kind = Kind.Int) :
    (∃ e, n.AsInt = .error e) ↔ ∃ u, n = .uint u ∧ 9223372036854775807 < u := by
  cases n with
  | int i => simp [Node.AsInt]
  | uint u =>
    by_cases h : u ≤ 9223372036854775807
    · have h2 : ¬ (9223372036854775807 < u) := by omega
      simp [Node.AsInt, h, h2]
    · have h2 : 9223372036854775807 < u := by omega
      simp [Node.AsInt, h, h2]
  | _ => simp [Node.Kind] at hk

/-- C4, as claimed, fails: the `uint64`-backed Integer node holding `2 ^ 63` has kind
Integer, yet `valueAsString` returns the error of `AsInt` on it, so success is not
equivalent to the kind being String or Integer. -/
theorem valueAsString_integer_kind_can_fail :
    (Node.uint 9223372036854775808).Kind = Kind.Int ∧
      valueAsString (Node.uint 9223372036854775808) = .error .uintOutOfRange ∧
      ¬ (∀ n : Node,
        (∃ s, valueAsString n = .ok s) ↔ (n.Kind = Kind.String ∨ n.Kind = Kind.Int)) := by
  have hval : valueAsString (Node.uint 9223372036854775808) = .error .uintOutOfRange := by
    rw [valueAsString_uint]
    simp
  refine ⟨rfl, hval, fun hall => ?_⟩
  obtain ⟨s, hs⟩ := (hall (Node.uint 9223372036854775808)).mpr (Or.inr rfl)
  rw [hval] at hs
  cases hs

/-- C4, amended: `valueAsString` returns the string itself on a String node; on an Integer
node whose `AsInt` gives the `int64` value `v` it returns the decimal text of `v`; on an
Integer node whose `AsInt` fails (a `uint64`-backed node above `math.MaxInt64`, and no
other) it returns that error; on a node of any other kind it returns the conversion error
naming the kind. It succeeds exactly when the kind is String, or the kind is Integer and
`AsInt` succeeds. -/
theorem valueAsString_by_kind :
    (∀ s : String, valueAsString (.string s) = .ok s) ∧
    (∀ (n : Node) (v : Int), n.Kind = Kind.Int → n.AsInt = .ok v → -2 ^ 63 ≤ v → v < 2 ^ 63 →
      valueAsString n = .ok (Itoa v) ∧ Itoa v = toString v) ∧
    (∀ (n : Node) (e : Err), n.Kind = Kind.Int → n.AsInt = .error e →
      valueAsString n = .error e ∧ ∃ u, n = .uint u ∧ 9223372036854775807 < u) ∧
    (∀ n : Node, n.Kind ≠ Kind.String → n.Kind ≠ Kind.Int →
      valueAsString n = .error (.unableToConvert n.Kind)) ∧
    (∀ n : Node, (∃ s, valueAsString n = .ok s) ↔
      (n.Kind = Kind.String ∨ (n.Kind = Kind.Int ∧ ∃ v, n.AsInt = .ok v))) := by
  refine ⟨fun s => rfl, ?_, ?_, ?_, ?_⟩
  · intro n v hk hv lo hi
    refine ⟨?_, Itoa_eq_toString v⟩
    simp [valueAsString, hk, hv, toGoInt_of_int64 v lo hi]
  · intro n e hk he
    refine ⟨?_, (AsInt_fails_iff n hk).mp ⟨e, he⟩⟩
    simp [valueAsString, hk, he]
  · intro n hs hi
    simp [valueAsString, hs, hi]
  · intro n
    cases n with
    | uint u =>
      by_cases h : u ≤ 9223372036854775807
      · simp [valueAsString_uint, Node.Kind, Node.AsInt, h]
      · simp [valueAsString_uint, Node.Kind, Node.AsInt, h]
    | _ => simp [valueAsString, Node.Kind, Node.AsInt, Node.AsString]

/-- C4, amended, at concrete nodes: a negative integer, a `uint64`-backed integer within
range, one out of range, a string, and a boolean. -/
theorem valueAsString_by_kind_witness :
    valueAsString (.int (-37)) = .ok "-37" ∧ valueAsString (.uint 37) = .ok "37" ∧
      valueAsString (.uint 9223372036854775808) = .error .uintOutOfRange ∧
      valueAsString (.string "Ada") = .ok "Ada" ∧
      valueAsString (.bool true) = .error (.unableToConvert Kind.Bool) :=
  ⟨(valueAsString_by_kind.2.1 (.int (-37)) (-37) rfl rfl (by decide) (by decide)).1,
    (valueAsString_by_kind.2.1 (.uint 37) 37 rfl rfl (by decide) (by decide)).1,
    (valueAsString_by_kind.2.2.1 (.uint 9223372036854775808) .uintOutOfRange rfl rfl).1,
    valueAsString_by_kind.1 "Ada",
    valueAsString_by_kind.2.2.2.1 (.bool true) (by decide) (by decide)⟩

/-! ## `mapKeys` and the rows of `Dump` -/

theorem mapKeysLoop_eq (entries : List (String × Node)) (keys : List String) :
    mapKeysLoop entries keys = keys ++ entries.map Prod.fst := by
  induction entries generalizing keys with
  | nil => simp [mapKeysLoop]
  | cons e rest ih =>
    obtain ⟨k, v⟩ := e
    simp [mapKeysLoop, ih]

theorem mapKeys_map (entries : List (String × Node)) :
    mapKeys (.map entries) = .ok (entries.map Prod.fst) := by
  simp [mapKeys, mapKeysLoop_eq]

theorem length_ne_zero_iff (id : String) : (id.length != 0) = !decide (id = "") := by
  have h : id.length = 0 ↔ id = "" := by
    constructor
    · intro h0
      have hd : id.data = [] := List.length_eq_zero.mp h0
      exact String.ext hd
    · intro h0
      subst h0
      rfl
  by_cases hid : id = ""
  · subst hid
    rfl
  · have : id.length ≠ 0 := fun h0 => hid (h.mp h0)
    simp [hid, this]

theorem take_set_succ (row : List String) (column : Nat) (value : String)
    (h : column < row.length) :
    (row.set column value).take (column + 1) = row.take column ++ [value] := by
  induction row generalizing column with
  | nil => simp at h
  | cons x xs ih =>
    cases column with
    | zero => simp
    | succ c =>
      have hc : c < xs.length := by simpa using h
      simp [List.set, List.take, ih c hc]

theorem drop_set_of_lt (row : List String) (column n : Nat) (value : String) (h : column < n) :
    (row.set column value).drop n = row.drop n := by
  induction row generalizing column n with
  | nil => simp
  | cons x xs ih =>
    cases n with
    | zero => omega
    | succ m =>
      cases column with
      | zero => simp
      | succ c => simp [List.set, ih c m (by omega)]

/-- The array writes of the inner loop amount to the column-wise conversion. -/
theorem fillRow_eq (data : Node) (columns : List String) (column : Nat) (row : List String)
    (hlen : column + columns.length ≤ row.length) :
    fillRow data columns column row =
      match convertColumns data columns with
      | .error err => .error err
      | .ok values =>
        .ok (row.take column ++ values ++ row.drop (column + columns.length)) := by
  induction columns generalizing column row with
  | nil => simp [fillRow, convertColumns]
  | cons key rest ih =>
    simp only [fillRow, convertColumns]
    cases hlk : data.LookupByString key with
    | error e => rfl
    | ok valueNode =>
      simp only []
      cases hv : valueAsString valueNode with
      | error e => rfl
      | ok value =>
        simp only []
        have hlen2 : column + 1 + rest.length ≤ (row.set column value).length := by
          simp only [List.length_set, List.length_cons] at *
          omega
        rw [ih (column + 1) (row.set column value) hlen2]
        cases hc : convertColumns data rest with
        | error e => rfl
        | ok values =>
          simp only [Except.ok.injEq]
          have hcol : column < row.length := by
            simp only [List.length_cons] at hlen
            omega
          have h1 := take_set_succ row column value hcol
          have h2 : (row.set column value).drop (column + 1 + rest.length) =
              row.drop (column + (rest.length + 1)) := by
            rw [drop_set_of_lt row column (column + 1 + rest.length) value (by omega)]
            congr 1
            omega
          rw [h1, h2]
          simp

theorem dumpFirst_settled (output : Sink) (appendId : Bool) (id : String) (record : Record)
    (vars : DumpVars) (hfirst : vars.first = false) :
    dumpFirst output appendId id record vars = (none, vars) := by
  simp [dumpFirst, hfirst]

/-- The row built by the body of the loop is the data row of the specification. -/
theorem filled_row_eq (columns : List String) (appendId : Bool) (record : Record)
    (rowSize : Nat)
    (hsize : rowSize = if appendId then columns.length + 1 else columns.length) :
    (match fillRow record.Data columns 0 (List.replicate rowSize "") with
      | .error err => Except.error err
      | .ok row =>
        .ok (if appendId then row.set (rowSize - 1) (EncodeToString record.Id) else row)) =
      dataRow columns appendId record := by
  have hlen : 0 + columns.length ≤ (List.replicate rowSize "").length := by
    cases appendId <;> simp [hsize]
  rw [fillRow_eq record.Data columns 0 _ hlen]
  unfold dataRow
  cases hc : convertColumns record.Data columns with
  | error e => rfl
  | ok values =>
    have hvl : values.length = columns.length := by
      clear hlen hsize
      induction columns generalizing values with
      | nil =>
        simp [convertColumns] at hc
        subst hc
        rfl
      | cons key rest ih =>
        simp only [convertColumns] at hc
        split at hc
        · simp at hc
        · split at hc
          · simp at hc
          · split at hc
            · simp at hc
            · rename_i vs hvs
              simp only [Except.ok.injEq] at hc
              subst hc
              simp [ih vs hvs]
    cases appendId with
    | false =>
      simp only [Bool.false_eq_true, if_false] at hsize ⊢
      simp [hsize]
    | true =>
      simp only [if_true] at hsize ⊢
      simp only [hsize, List.take_zero, List.nil_append, Nat.zero_add, Nat.add_sub_cancel,
        Except.ok.injEq]
      have hd : List.drop columns.length (List.replicate (columns.length + 1) "") = [""] := by
        simp [List.drop_replicate]
      rw [hd, ← hvl]
      simp [List.set_append]

/-- One pass of the loop once the header is out: the record's data row is written, or the
loop stops with the conversion or write error and writes nothing. -/
theorem dumpRecords_cons (output : Sink) (appendId : Bool) (id : String) (record : Record)
    (records : List Record) (vars : DumpVars) (hfirst : vars.first = false)
    (hsize : vars.rowSize = if appendId then vars.columns.length + 1 else vars.columns.length) :
    dumpRecords output appendId id (record :: records) vars =
      match dataRow vars.columns appendId record with
      | .error err => ⟨some err, vars.columns, vars.written⟩
      | .ok row =>
        match output.fault vars.written row with
        | some err => ⟨some err, vars.columns, vars.written⟩
        | none => dumpRecords output appendId id records { vars with written := vars.written ++ [row] } := by
  rw [← filled_row_eq vars.columns appendId record vars.rowSize hsize]
  simp only [dumpRecords, dumpFirst_settled output appendId id record vars hfirst]
  cases fillRow record.Data vars.columns 0 (List.replicate vars.rowSize "") with
  | error e => rfl
  | ok row => rfl

/-- The first pass of the loop on a map record whose header row the sink accepts: the
columns become the keys of that record, the header row is written, and the pass goes on
as every later one does. -/
theorem dumpRecords_first (output : Sink) (appendId : Bool) (id : String) (record : Record)
    (records : List Record) (vars : DumpVars) (entries : List (String × Node))
    (hfirst : vars.first = true) (hdata : record.Data = .map entries)
    (hsink : output.fault vars.written
      (if appendId then entries.map Prod.fst ++ [id] else entries.map Prod.fst) = none) :
    dumpRecords output appendId id (record :: records) vars =
      dumpRecords output appendId id (record :: records)
        ⟨entries.map Prod.fst,
          if appendId then (entries.map Prod.fst).length + 1 else (entries.map Prod.fst).length,
          false,
          vars.written ++ [if appendId then entries.map Prod.fst ++ [id] else entries.map Prod.fst]⟩ := by
  have h1 : dumpFirst output appendId id record vars =
      (none, ⟨entries.map Prod.fst,
          if appendId then (entries.map Prod.fst).length + 1 else (entries.map Prod.fst).length,
          false,
          vars.written ++ [if appendId then entries.map Prod.fst ++ [id] else entries.map Prod.fst]⟩) := by
    simp only [dumpFirst, hfirst, if_true, hdata, mapKeys_map]
    simp only [hsink]
  conv_lhs => rw [dumpRecords, h1]
  conv_rhs => rw [dumpRecords, dumpFirst_settled _ _ _ _ _ rfl]

/-- Whatever the sink and the records do, once the header is out the rows added are the
data rows of an initial stretch of the records, and the columns stay as they are. -/
theorem dumpRecords_rows (output : Sink) (appendId : Bool) (id : String)
    (records : List Record) (vars : DumpVars) (hfirst : vars.first = false)
    (hsize : vars.rowSize = if appendId then vars.columns.length + 1 else vars.columns.length) :
    ∃ out : List (List String),
      (dumpRecords output appendId id records vars).rows = vars.written ++ out ∧
      (dumpRecords output appendId id records vars).columns = vars.columns ∧
      List.Forall₂ (fun record row => dataRow vars.columns appendId record = .ok row)
        (records.take out.length) out ∧
      ((dumpRecords output appendId id records vars).err = none → out.length = records.length) := by
  induction records generalizing vars with
  | nil => exact ⟨[], by simp [dumpRecords], rfl, by simp, fun _ => rfl⟩
  | cons record rest ih =>
    rw [dumpRecords_cons output appendId id record rest vars hfirst hsize]
    cases hrow : dataRow vars.columns appendId record with
    | error e => exact ⟨[], by simp, rfl, by simp, by simp⟩
    | ok row =>
      simp only []
      cases hf : output.fault vars.written row with
      | some e => exact ⟨[], by simp, rfl, by simp, by simp⟩
      | none =>
        simp only []
        obtain ⟨out, h1, h2, h3, h4⟩ :=
          ih { vars with written := vars.written ++ [row] } hfirst hsize
        refine ⟨row :: out, ?_, h2, ?_, ?_⟩
        · rw [h1]
          simp
        · simp only [List.length_cons, List.take_succ_cons]
          exact List.Forall₂.cons hrow h3
        · intro he
          simp [h4 he]

/-- With a sink that accepts every row, records that convert are written in order and the
first record that does not convert stops the loop with its error. -/
theorem dumpRecords_stop (output : Sink) (appendId : Bool) (id : String)
    (hsink : ∀ written row, output.fault written row = none)
    (pre : List Record) (rows : List (List String)) (bad : Record) (post : List Record)
    (e : Err) (columns : List String) (vars : DumpVars) (hcols : vars.columns = columns)
    (hfirst : vars.first = false)
    (hsize : vars.rowSize = if appendId then vars.columns.length + 1 else vars.columns.length)
    (hpre : List.Forall₂ (fun record row => dataRow columns appendId record = .ok row)
      pre rows)
    (hbad : dataRow columns appendId bad = .error e) :
    dumpRecords output appendId id (pre ++ bad :: post) vars =
      ⟨some e, columns, vars.written ++ rows⟩ := by
  induction hpre generalizing vars with
  | nil =>
    have hbad2 : dataRow vars.columns appendId bad = .error e := by rw [hcols]; exact hbad
    rw [List.nil_append, dumpRecords_cons output appendId id bad post vars hfirst hsize, hbad2]
    simp [hcols]
  | @cons record row pre rows hrow _ ih =>
    have hrow2 : dataRow vars.columns appendId record = .ok row := by rw [hcols]; exact hrow
    rw [List.cons_append, dumpRecords_cons output appendId id record _ vars hfirst hsize, hrow2]
    simp only [hsink]
    rw [ih { vars with written := vars.written ++ [row] } hcols hfirst hsize]
    simp

theorem convertColumns_not_panic (data : Node) (columns : List String) (e : Err)
    (h : convertColumns data columns = .error e) : e.isPanic = false := by
  induction columns with
  | nil => simp [convertColumns] at h
  | cons key rest ih =>
    simp only [convertColumns] at h
    cases hlk : data.LookupByString key with
    | error e1 =>
      rw [hlk] at h
      simp only [Except.error.injEq] at h
      subst h
      unfold Node.LookupByString at hlk
      split at hlk
      · split at hlk
        · simp at hlk
        · simp only [Except.error.injEq] at hlk
          subst hlk
          rfl
      · simp only [Except.error.injEq] at hlk
        subst hlk
        rfl
    | ok valueNode =>
      rw [hlk] at h
      simp only [] at h
      cases hv : valueAsString valueNode with
      | error e2 =>
        rw [hv] at h
        simp only [Except.error.injEq] at h
        subst h
        exact valueAsString_not_panic valueNode e2 hv
      | ok value =>
        rw [hv] at h
        simp only [] at h
        cases hc : convertColumns data rest with
        | error e3 =>
          rw [hc] at h
          simp only [Except.error.injEq] at h
          subst h
          exact ih hc
        | ok values =>
          rw [hc] at h
          simp at h

/-- A record that lacks one of the columns has no data row. -/
theorem convertColumns_missing (data : Node) (columns : List String) (key : String)
    (hkey : key ∈ columns) (hmiss : ∀ v, data.LookupByString key ≠ .ok v) :
    ∃ e, convertColumns data columns = .error e := by
  induction columns with
  | nil => simp at hkey
  | cons k rest ih =>
    simp only [convertColumns]
    cases hlk : data.LookupByString k with
    | error e1 => exact ⟨e1, rfl⟩
    | ok valueNode =>
      simp only []
      cases hv : valueAsString valueNode with
      | error e2 => exact ⟨e2, rfl⟩
      | ok value =>
        simp only []
        have hk : key ∈ rest := by
          rcases List.mem_cons.mp hkey with h | h
          · subst h
            exact absurd hlk (hmiss valueNode)
          · exact h
        obtain ⟨e3, he3⟩ := ih hk
        exact ⟨e3, by rw [he3]⟩

theorem lookup_missing (entries : List (String × Node)) (key : String)
    (h : key ∉ entries.map Prod.fst) : ∀ v, (Node.map entries).LookupByString key ≠ .ok v := by
  have hnone : lookupEntry key entries = none := by
    induction entries with
    | nil => rfl
    | cons e rest ih =>
      obtain ⟨k, v⟩ := e
      simp only [List.map_cons, List.mem_cons, not_or] at h
      have hk : ¬ (k = key) := fun hk => h.1 hk.symm
      simp [lookupEntry, hk, ih h.2]
  intro v
  simp [Node.LookupByString, hnone]

/-- Shape of the output of the loop of `Dump` from its initial variables: nothing at all, or
the header row of the first record followed by the data rows, under that record's keys, of
an initial stretch of the records. -/
theorem dumpRecords_shape (output : Sink) (appendId : Bool) (id : String)
    (records : List Record) :
    (dumpRecords output appendId id records ⟨[], 0, true, []⟩).rows = [] ∨
    ∃ first rest entries out,
      records = first :: rest ∧ first.Data = .map entries ∧
      output.fault []
        (if appendId then entries.map Prod.fst ++ [id] else entries.map Prod.fst) = none ∧
      (dumpRecords output appendId id records ⟨[], 0, true, []⟩).rows =
        (if appendId then entries.map Prod.fst ++ [id] else entries.map Prod.fst) :: out ∧
      (dumpRecords output appendId id records ⟨[], 0, true, []⟩).columns =
        entries.map Prod.fst ∧
      List.Forall₂ (fun record row => dataRow (entries.map Prod.fst) appendId record = .ok row)
        (records.take out.length) out := by
  cases records with
  | nil => exact Or.inl rfl
  | cons first rest =>
    cases hdata : first.Data with
    | map entries =>
      cases hf : output.fault []
          (if appendId then entries.map Prod.fst ++ [id] else entries.map Prod.fst) with
      | some e =>
        left
        simp [dumpRecords, dumpFirst, hdata, mapKeys_map, hf]
      | none =>
        right
        rw [dumpRecords_first output appendId id first rest ⟨[], 0, true, []⟩ entries rfl hdata hf]
        obtain ⟨out, h1, h2, h3, _⟩ := dumpRecords_rows output appendId id (first :: rest)
          ⟨entries.map Prod.fst,
            if appendId then (entries.map Prod.fst).length + 1 else (entries.map Prod.fst).length,
            false,
            [] ++ [if appendId then entries.map Prod.fst ++ [id] else entries.map Prod.fst]⟩
          rfl rfl
        exact ⟨first, rest, entries, out, rfl, hdata, hf, by simpa using h1, h2, h3⟩
    | _ =>
      left
      simp [dumpRecords, dumpFirst, hdata, mapKeys]

theorem headerRow_eq (columns : List String) (id : String) :
    (if (id.length != 0) = true then columns ++ [id] else columns) = headerRow columns id := by
  rw [length_ne_zero_iff]
  by_cases h : id = "" <;> simp [headerRow, h]

/-- C3: when the scan yields at least one record, the first record is a map and the sink
accepts the header row, the first row `Dump` writes is the list of that record's keys in
stored order, followed by the id column name exactly when it is not empty. Whatever the
later records are, the column list at the end of the run is still that key list and every
data row written is the data row of its record under that list. -/
theorem Dump_header_from_first_record {σ : Type} (B : Backend σ) (output : Sink)
    (input collectionName id : String) (db collection : σ) (first : Record)
    (rest : List Record) (entries : List (String × Node))
    (himport : B.importFromFile input = .ok db)
    (hcoll : B.collection db collectionName = .ok collection)
    (hsearch : B.search collection = .ok (first :: rest))
    (hdata : first.Data = .map entries)
    (hsink : output.fault [] (headerRow (entries.map Prod.fst) id) = none) :
    (Dump B output input collectionName id).rows.head? =
        some (headerRow (entries.map Prod.fst) id) ∧
      headerRow (entries.map Prod.fst) id =
        entries.map Prod.fst ++ (if id = "" then [] else [id]) ∧
      (Dump B output input collectionName id).columns = entries.map Prod.fst ∧
      List.Forall₂
        (fun record row => dataRow (entries.map Prod.fst) (id.length != 0) record = .ok row)
        ((first :: rest).take (Dump B output input collectionName id).rows.tail.length)
        (Dump B output input collectionName id).rows.tail := by
  have hrun : Dump B output input collectionName id =
      dumpRecords output (id.length != 0) id (first :: rest) ⟨[], 0, true, []⟩ := by
    simp [Dump, himport, hcoll, hsearch]
  have hsink2 : output.fault []
      (if (id.length != 0) = true then entries.map Prod.fst ++ [id] else entries.map Prod.fst) =
        none := by
    rw [headerRow_eq]
    exact hsink
  rw [hrun, dumpRecords_first output (id.length != 0) id first rest ⟨[], 0, true, []⟩ entries rfl
    hdata hsink2]
  obtain ⟨out, h1, h2, h3, _⟩ := dumpRecords_rows output (id.length != 0) id (first :: rest)
    ⟨entries.map Prod.fst,
      if (id.length != 0) = true then (entries.map Prod.fst).length + 1
        else (entries.map Prod.fst).length,
      false,
      [] ++ [if (id.length != 0) = true then entries.map Prod.fst ++ [id]
        else entries.map Prod.fst]⟩
    rfl rfl
  rw [h1, h2]
  simp only [headerRow_eq, List.nil_append, List.singleton_append, List.head?_cons,
    List.tail_cons, true_and]
  refine ⟨?_, h3⟩
  by_cases h : id = "" <;> simp [headerRow, h]

/-- C3, on the sample records with the id column `id`. -/
theorem Dump_header_from_first_record_witness :
    (Dump (memBackend sampleRecords none) okSink "in" "default" "id").rows.head? =
      some ["name", "age", "id"] :=
  (Dump_header_from_first_record (memBackend sampleRecords none) okSink "in" "default" "id"
    ⟨sampleRecords, []⟩ ⟨sampleRecords, []⟩ _ _ [("name", .string "Ada"), ("age", .int 37)]
    rfl rfl rfl rfl rfl).1

theorem split_at_index {α : Type} (xs : List α) (k : Nat) (x : α) (h : xs[k]? = some x) :
    xs = xs.take k ++ x :: xs.drop (k + 1) := by
  induction xs generalizing k with
  | nil => simp at h
  | cons y ys ih =>
    cases k with
    | zero =>
      simp only [List.getElem?_cons_zero, Option.some.injEq] at h
      simp [h]
    | succ j =>
      simp only [List.getElem?_cons_succ] at h
      simp only [List.take_succ_cons, List.drop_succ_cons, List.cons_append, List.cons.injEq,
        true_and]
      exact ih j h

theorem rows_of_convertible (columns : List String) (appendId : Bool) (pre : List Record)
    (h : ∀ record ∈ pre, ∃ row, dataRow columns appendId record = .ok row) :
    ∃ rows, List.Forall₂ (fun record row => dataRow columns appendId record = .ok row)
      pre rows := by
  induction pre with
  | nil => exact ⟨[], List.Forall₂.nil⟩
  | cons r rest ih =>
    obtain ⟨row, hrow⟩ := h r (List.mem_cons_self r rest)
    obtain ⟨rows, hrows⟩ := ih (fun record hm => h record (List.mem_cons_of_mem r hm))
    exact ⟨row :: rows, List.Forall₂.cons hrow hrows⟩

/-- C5: let the scan yield records of which the first is a map, the one at position `k > 0`
lacks a key of the first (a lookup by that key finds no value), and those before position
`k` all convert under the first record's keys; let the sink accept every row. Then `Dump`
returns an error (not a panic), and the rows written are the header row followed by the
data rows of the records before position `k`, in order, and nothing else. -/
theorem Dump_stops_at_missing_column {σ : Type} (B : Backend σ) (output : Sink)
    (input collectionName id : String) (db collection : σ) (records : List Record) (k : Nat)
    (first bad : Record) (entries : List (String × Node)) (key : String)
    (himport : B.importFromFile input = .ok db)
    (hcoll : B.collection db collectionName = .ok collection)
    (hsearch : B.search collection = .ok records)
    (hsink : ∀ written row, output.fault written row = none)
    (hfirst : records[0]? = some first) (hdata : first.Data = .map entries)
    (hk : 0 < k) (hbad : records[k]? = some bad)
    (hkey : key ∈ entries.map Prod.fst) (hmiss : ∀ v, bad.Data.LookupByString key ≠ .ok v)
    (hconv : ∀ record ∈ records.take k,
      ∃ row, dataRow (entries.map Prod.fst) (id.length != 0) record = .ok row) :
    (∃ e, (Dump B output input collectionName id).err = some e ∧ e.isPanic = false) ∧
      (Dump B output input collectionName id).rows.head? =
        some (headerRow (entries.map Prod.fst) id) ∧
      (Dump B output input collectionName id).rows.tail.length = k ∧
      List.Forall₂
        (fun record row => dataRow (entries.map Prod.fst) (id.length != 0) record = .ok row)
        (records.take k) (Dump B output input collectionName id).rows.tail := by
  obtain ⟨rows, hrows⟩ := rows_of_convertible _ _ _ hconv
  obtain ⟨e, he⟩ := convertColumns_missing bad.Data (entries.map Prod.fst) key hkey hmiss
  have hbadrow : dataRow (entries.map Prod.fst) (id.length != 0) bad = .error e := by
    simp [dataRow, he]
  have hsplit := split_at_index records k bad hbad
  obtain ⟨j, rfl⟩ : ∃ j, k = j + 1 := ⟨k - 1, by omega⟩
  cases records with
  | nil => simp at hfirst
  | cons r rest =>
    simp only [List.getElem?_cons_zero, Option.some.injEq] at hfirst
    subst hfirst
    have hrun : Dump B output input collectionName id =
        dumpRecords output (id.length != 0) id (r :: rest) ⟨[], 0, true, []⟩ := by
      simp [Dump, himport, hcoll, hsearch]
    rw [hrun, dumpRecords_first output (id.length != 0) id r rest ⟨[], 0, true, []⟩ entries rfl
      hdata (hsink _ _), hsplit,
      dumpRecords_stop output (id.length != 0) id hsink _ rows bad _ e (entries.map Prod.fst) _
        rfl rfl rfl hrows hbadrow]
    simp only [headerRow_eq, List.nil_append, List.singleton_append, List.head?_cons,
      List.tail_cons, true_and]
    refine ⟨⟨e, rfl, convertColumns_not_panic _ _ _ he⟩, ?_, ?_⟩
    · have hl := hrows.length_eq
      rw [← hl, List.length_take]
      have hlt : j + 1 < (r :: rest).length := by
        by_contra hge
        have : (r :: rest)[j + 1]? = none := List.getElem?_eq_none (by omega)
        rw [this] at hbad
        cases hbad
      omega
    · rw [← hsplit]
      exact hrows

/-- C5, on the sample records, whose third record has no `age`. -/
theorem Dump_stops_at_missing_column_witness :
    (Dump (memBackend sampleRecords none) okSink "in" "default" "").err =
        some (.notExists "age") ∧
      (Dump (memBackend sampleRecords none) okSink "in" "default" "").rows.tail.length = 2 :=
  ⟨rfl,
    (Dump_stops_at_missing_column (memBackend sampleRecords none) okSink "in" "default" ""
      ⟨sampleRecords, []⟩ ⟨sampleRecords, []⟩ sampleRecords 2 _ _
      [("name", .string "Ada"), ("age", .int 37)] "age" rfl rfl rfl (fun _ _ => rfl) rfl rfl
      (by decide) rfl (by decide) (by intro v h; cases h)
      (by
        intro record hm
        simp only [sampleRecords, List.take, List.mem_cons, List.mem_singleton,
          List.not_mem_nil, or_false] at hm
        rcases hm with h | h <;> subst h
        · exact ⟨_, rfl⟩
        · exact ⟨_, rfl⟩)).2.2.1⟩

theorem forall₂_index {α β : Type} (R : α → β → Prop) (xs : List α) (ys : List β)
    (h : List.Forall₂ R xs ys) (k : Nat) (y : β) (hy : ys[k]? = some y) :
    ∃ x, xs[k]? = some x ∧ R x y := by
  induction h generalizing k with
  | nil => simp at hy
  | @cons a b as bs hab _ ih =>
    cases k with
    | zero =>
      simp only [List.getElem?_cons_zero, Option.some.injEq] at hy
      subst hy
      exact ⟨a, by simp, hab⟩
    | succ j =>
      simp only [List.getElem?_cons_succ] at hy ⊢
      exact ih j hy

theorem index_of_take {α : Type} (xs : List α) (n k : Nat) (x : α)
    (h : (xs.take n)[k]? = some x) : xs[k]? = some x := by
  induction xs generalizing n k with
  | nil => simp at h
  | cons y ys ih =>
    cases n with
    | zero => simp at h
    | succ m =>
      cases k with
      | zero => simpa using h
      | succ j =>
        simp only [List.take_succ_cons, List.getElem?_cons_succ] at h ⊢
        exact ih m j h

theorem alphabet_chars : ∀ c ∈ encodeURL, (c.isAlphanum = true ∨ c = '-' ∨ c = '_') ∧ c ≠ '=' := by
  decide

/-- C10: when `Dump` is given a non-empty id column name, every data row it writes (the row
at position `k + 1` belongs to the `k`-th record of the scan) ends with the encoding of that
record's identifier by `base64.RawURLEncoding`; the encoding consists of letters, digits,
`-` and `_` only, never `=`, and decoding it gives back the identifier bytes. -/
theorem Dump_id_column {σ : Type} (B : Backend σ) (output : Sink)
    (input collectionName id : String) (db collection : σ) (records : List Record)
    (himport : B.importFromFile input = .ok db)
    (hcoll : B.collection db collectionName = .ok collection)
    (hsearch : B.search collection = .ok records) (hid : id ≠ "") :
    ∀ (k : Nat) (row : List String),
      (Dump B output input collectionName id).rows[k + 1]? = some row →
      ∃ record, records[k]? = some record ∧
        row.getLast? = some (EncodeToString record.Id) ∧
        (∀ c ∈ (EncodeToString record.Id).data,
          (c.isAlphanum = true ∨ c = '-' ∨ c = '_') ∧ c ≠ '=') ∧
        DecodeString (EncodeToString record.Id) = some record.Id := by
  intro k row hrow
  have happ : (id.length != 0) = true := by
    rw [length_ne_zero_iff]
    simp [hid]
  have hrun : Dump B output input collectionName id =
      dumpRecords output true id records ⟨[], 0, true, []⟩ := by
    simp [Dump, himport, hcoll, hsearch, happ]
  rw [hrun] at hrow
  rcases dumpRecords_shape output true id records with hnil | ⟨first, rest, entries, out, _, _, _,
    hrows, _, hall⟩
  · rw [hnil] at hrow
    simp at hrow
  · rw [hrows] at hrow
    simp only [List.getElem?_cons_succ] at hrow
    obtain ⟨record, hrec, hdr⟩ := forall₂_index _ _ _ hall k row hrow
    refine ⟨record, index_of_take _ _ _ _ hrec, ?_, ?_, ?_⟩
    · unfold dataRow at hdr
      cases hc : convertColumns record.Data (entries.map Prod.fst) with
      | error e => simp [hc] at hdr
      | ok values =>
        simp only [hc, if_true, Except.ok.injEq] at hdr
        subst hdr
        simp
    · intro c hc
      exact alphabet_chars c (encodeBytes_mem record.Id c hc)
    · exact decodeChars_encodeBytes record.Id

/-- C10, on the second sample record, whose identifier is the bytes 2 and 255. -/
theorem Dump_id_column_witness :
    ∃ record, sampleRecords[1]? = some record ∧
      ["Grace", "34", "Av8"].getLast? = some (EncodeToString record.Id) ∧
      (∀ c ∈ (EncodeToString record.Id).data,
        (c.isAlphanum = true ∨ c = '-' ∨ c = '_') ∧ c ≠ '=') ∧
      DecodeString (EncodeToString record.Id) = some record.Id :=
  Dump_id_column (memBackend sampleRecords none) okSink "in" "default" "id"
    ⟨sampleRecords, []⟩ ⟨sampleRecords, []⟩ sampleRecords rfl rfl rfl (by decide) 1
    ["Grace", "34", "Av8"] rfl

/-! ## The record builder -/

theorem MapEntry_ok (ma ma' : MapAssembler) (k : String) (v : Node)
    (h : MapEntry ma k v = .ok ma') : k ∉ ma.map Prod.fst ∧ ma' = ma ++ [(k, v)] := by
  unfold MapEntry at h
  split at h
  · simp at h
  · rename_i hany
    simp only [Except.ok.injEq] at h
    refine ⟨?_, h.symm⟩
    intro hmem
    apply hany
    obtain ⟨e, he, hk⟩ := List.mem_map.mp hmem
    exact List.any_eq_true.mpr ⟨e, he, by simp [hk]⟩

theorem MapEntry_of_fresh (ma : MapAssembler) (k : String) (v : Node)
    (h : k ∉ ma.map Prod.fst) : MapEntry ma k v = .ok (ma ++ [(k, v)]) := by
  unfold MapEntry
  split
  · rename_i hany
    obtain ⟨e, he, hk⟩ := List.any_eq_true.mp hany
    exact absurd (List.mem_map.mpr ⟨e, he, by simpa using hk⟩) h
  · rfl

theorem MapEntry_error (ma : MapAssembler) (k : String) (v : Node) (e : Err)
    (h : MapEntry ma k v = .error e) : e = .repeatedMapKey k ∧ k ∈ ma.map Prod.fst := by
  by_cases hk : k ∈ ma.map Prod.fst
  · unfold MapEntry at h
    split at h
    · simp only [Except.error.injEq] at h
      exact ⟨h.symm, hk⟩
    · simp at h
  · rw [MapEntry_of_fresh ma k v hk] at h
    simp at h

/-- One pass of the field loop, with the two branches of the source merged: the header is
indexed, and the entry carries the typed value of the cell. -/
theorem assembleFields_cons (decode : String → Except Err Node) (headers : List String)
    (fieldValue : String) (record : List String) (fieldIndex : Nat) (ma : MapAssembler) :
    assembleFields decode headers (fieldValue :: record) fieldIndex ma =
      match headers[fieldIndex]? with
      | none => .error (.panic "index out of range")
      | some header =>
        match MapEntry ma header (typedValue decode fieldValue) with
        | .error err => .error err
        | .ok ma => assembleFields decode headers record (fieldIndex + 1) ma := by
  simp only [assembleFields, typedValue]
  cases decode fieldValue <;> rfl

theorem drop_of_index {α : Type} (xs : List α) (i : Nat) (x : α) (h : xs[i]? = some x) :
    xs.drop i = x :: xs.drop (i + 1) := by
  induction xs generalizing i with
  | nil => simp at h
  | cons y ys ih =>
    cases i with
    | zero =>
      simp only [List.getElem?_cons_zero, Option.some.injEq] at h
      simp [h]
    | succ j =>
      simp only [List.getElem?_cons_succ] at h
      simpa using ih j h

theorem index_lt_length {α : Type} (xs : List α) (i : Nat) (x : α) (h : xs[i]? = some x) :
    i < xs.length := by
  by_contra hge
  rw [List.getElem?_eq_none (by omega)] at h
  cases h

/-- A successful run of the field loop appends, for each cell in order, the entry of the
header at the cell's position with the typed value of the cell; the cells do not outnumber
the headers from that position on, and all keys stay distinct. -/
theorem assembleFields_ok (decode : String → Except Err Node) (headers : List String)
    (record : List String) (fieldIndex : Nat) (ma ma' : MapAssembler)
    (h : assembleFields decode headers record fieldIndex ma = .ok ma')
    (hnd : (ma.map Prod.fst).Nodup) :
    (record ≠ [] → fieldIndex + record.length ≤ headers.length) ∧
      ma' = ma ++ List.zipWith (fun header text => (header, typedValue decode text))
        (headers.drop fieldIndex) record ∧
      (ma'.map Prod.fst).Nodup := by
  induction record generalizing fieldIndex ma with
  | nil =>
    simp only [assembleFields, Except.ok.injEq] at h
    subst h
    exact ⟨fun hne => absurd rfl hne, by simp, hnd⟩
  | cons text rest ih =>
    rw [assembleFields_cons] at h
    cases hh : headers[fieldIndex]? with
    | none => simp [hh] at h
    | some header =>
      simp only [hh] at h
      cases hme : MapEntry ma header (typedValue decode text) with
      | error e => simp [hme] at h
      | ok ma1 =>
        simp only [hme] at h
        obtain ⟨hfresh, hma1⟩ := MapEntry_ok _ _ _ _ hme
        have hnd1 : (ma1.map Prod.fst).Nodup := by
          rw [hma1]
          simp only [List.map_append, List.map_cons, List.map_nil]
          exact List.Nodup.append hnd (List.nodup_singleton _)
            (by
              intro a ha hb
              simp only [List.mem_singleton] at hb
              subst hb
              exact hfresh ha)
        obtain ⟨hlen, hres, hnd'⟩ := ih (fieldIndex + 1) ma1 h hnd1
        have hlt := index_lt_length _ _ _ hh
        refine ⟨fun _ => ?_, ?_, hnd'⟩
        · by_cases hr : rest = []
          · subst hr
            simp only [List.length_cons, List.length_nil]
            omega
          · have := hlen hr
            simp only [List.length_cons]
            omega
        · rw [hres, hma1, drop_of_index _ _ _ hh]
          simp

theorem lookupEntry_of_mem (entries : List (String × Node)) (key : String) (v : Node)
    (hnd : (entries.map Prod.fst).Nodup) (hmem : (key, v) ∈ entries) :
    lookupEntry key entries = some v := by
  induction entries with
  | nil => simp at hmem
  | cons e rest ih =>
    obtain ⟨k, w⟩ := e
    simp only [List.map_cons, List.nodup_cons] at hnd
    rcases List.mem_cons.mp hmem with heq | hin
    · simp only [Prod.mk.injEq] at heq
      simp [lookupEntry, heq.1, heq.2]
    · have hk : ¬ (k = key) := by
        intro hk
        subst hk
        exact hnd.1 (List.mem_map.mpr ⟨(k, v), hin, rfl⟩)
      simp [lookupEntry, hk, ih hnd.2 hin]

/-- What a successful `qp.BuildMap` of the builder function returns: a map whose entries
are the `index` entry, when requested, and then one entry per cell, keyed by the header at
the cell's position and holding the typed value of the cell; the keys are distinct. -/
theorem BuildMap_ok (decode : String → Except Err Node) (headers : List String)
    (addRowIndex : Bool) (index : Int) (record : List String) (sizeHint : Int) (node : Node)
    (h : BuildMap sizeHint (assembleRecord decode headers addRowIndex index record) = .ok node) :
    (record ≠ [] → record.length ≤ headers.length) ∧
      node = .map ((if addRowIndex then [("index", Node.int (toInt64 index))] else []) ++
        List.zipWith (fun header text => (header, typedValue decode text)) headers record) ∧
      (((if addRowIndex then [("index", Node.int (toInt64 index))] else []) ++
        List.zipWith (fun header text => (header, typedValue decode text)) headers record).map
          Prod.fst).Nodup := by
  unfold BuildMap at h
  cases hfn : assembleRecord decode headers addRowIndex index record [] with
  | error e => simp [hfn] at h
  | ok ma =>
    simp only [hfn, Except.ok.injEq] at h
    subst h
    unfold assembleRecord at hfn
    cases addRowIndex with
    | false =>
      simp only [Bool.false_eq_true, if_false] at hfn ⊢
      obtain ⟨h1, h2, h3⟩ := assembleFields_ok decode headers record 0 [] ma hfn (by simp)
      simp only [List.drop_zero, List.nil_append, Nat.zero_add] at h1 h2
      subst h2
      exact ⟨h1, by simp, by simpa using h3⟩
    | true =>
      simp only [if_true] at hfn ⊢
      have hme : MapEntry [] "index" (Node.int (toInt64 index)) =
          .ok [("index", Node.int (toInt64 index))] := rfl
      rw [hme] at hfn
      simp only [] at hfn
      obtain ⟨h1, h2, h3⟩ := assembleFields_ok decode headers record 0 _ ma hfn (by simp)
      simp only [List.drop_zero, Nat.zero_add] at h1 h2
      subst h2
      exact ⟨h1, rfl, h3⟩

theorem MapEntry_of_mem (ma : MapAssembler) (k : String) (v : Node)
    (h : k ∈ ma.map Prod.fst) : MapEntry ma k v = .error (.repeatedMapKey k) := by
  unfold MapEntry
  split
  · rfl
  · rename_i hany
    exfalso
    apply hany
    obtain ⟨e, he, hk⟩ := List.mem_map.mp h
    exact List.any_eq_true.mpr ⟨e, he, by simp [hk]⟩

/-- The error of the field loop does not depend on the decoder: it is decided by the keys
alone. -/
theorem assembleFields_error_indep (d1 d2 : String → Except Err Node) (headers : List String)
    (record : List String) (fieldIndex : Nat) (ma1 ma2 : MapAssembler) (e : Err)
    (hkeys : ma1.map Prod.fst = ma2.map Prod.fst)
    (h : assembleFields d1 headers record fieldIndex ma1 = .error e) :
    assembleFields d2 headers record fieldIndex ma2 = .error e ∧
      (e = .panic "index out of range" ∨ ∃ k, e = .repeatedMapKey k) := by
  induction record generalizing fieldIndex ma1 ma2 with
  | nil => simp [assembleFields] at h
  | cons text rest ih =>
    rw [assembleFields_cons] at h ⊢
    cases hh : headers[fieldIndex]? with
    | none =>
      simp only [hh, Except.error.injEq] at h ⊢
      exact ⟨h, Or.inl h.symm⟩
    | some header =>
      simp only [hh] at h ⊢
      by_cases hmem : header ∈ ma1.map Prod.fst
      · rw [MapEntry_of_mem _ _ _ hmem] at h
        rw [MapEntry_of_mem _ _ _ (hkeys ▸ hmem)]
        simp only [Except.error.injEq] at h ⊢
        exact ⟨h, Or.inr ⟨header, h.symm⟩⟩
      · rw [MapEntry_of_fresh _ _ _ hmem] at h
        rw [MapEntry_of_fresh _ _ _ (hkeys ▸ hmem)]
        simp only [] at h ⊢
        exact ih (fieldIndex + 1) _ _ (by simp [hkeys]) h

/-- The error of `qp.BuildMap` on the builder function is the same whatever the decoder
does, and it is the out-of-range panic or a repeated key. -/
theorem BuildMap_error_indep (d1 d2 : String → Except Err Node) (headers : List String)
    (addRowIndex : Bool) (index : Int) (record : List String) (sizeHint : Int) (e : Err)
    (h : BuildMap sizeHint (assembleRecord d1 headers addRowIndex index record) = .error e) :
    BuildMap sizeHint (assembleRecord d2 headers addRowIndex index record) = .error e ∧
      (e = .panic "index out of range" ∨ ∃ k, e = .repeatedMapKey k) := by
  unfold BuildMap at h ⊢
  cases hfn : assembleRecord d1 headers addRowIndex index record [] with
  | ok ma => simp [hfn] at h
  | error e1 =>
    simp only [hfn, Except.error.injEq] at h
    subst h
    unfold assembleRecord at hfn ⊢
    cases addRowIndex with
    | false =>
      simp only [Bool.false_eq_true, if_false] at hfn ⊢
      obtain ⟨h1, h2⟩ := assembleFields_error_indep d1 d2 headers record 0 [] [] e1 rfl hfn
      simp [h1, h2]
    | true =>
      simp only [if_true] at hfn ⊢
      have hme : MapEntry [] "index" (Node.int (toInt64 index)) =
          .ok [("index", Node.int (toInt64 index))] := rfl
      rw [hme] at hfn ⊢
      simp only [] at hfn ⊢
      obtain ⟨h1, h2⟩ := assembleFields_error_indep d1 d2 headers record 0 _ _ e1 rfl hfn
      simp [h1, h2]

/-! ## The reader and the loop of `ingestCSV` -/

theorem Read_nil (fieldsPerRecord : Nat) :
    Reader.Read ⟨[], fieldsPerRecord⟩ = (.error .eof, ⟨[], fieldsPerRecord⟩) := rfl

theorem Read_cons_pending (raw : RawRecord) (rest : List RawRecord) (fieldsPerRecord : Nat) :
    (Reader.Read ⟨raw :: rest, fieldsPerRecord⟩).2.pending = rest := by
  unfold Reader.Read
  simp only []
  split <;> rfl

/-- A record that `Read` returns without error is the next pending one; it has the length
`FieldsPerRecord` when that is positive, and sets `FieldsPerRecord` when it is zero. -/
theorem Read_cons_ok (raw : RawRecord) (rest : List RawRecord) (fieldsPerRecord : Nat)
    (record : List String) (reader : Reader)
    (h : Reader.Read ⟨raw :: rest, fieldsPerRecord⟩ = (.ok record, reader)) :
    record = raw.fields ∧ raw.err = none ∧
      (0 < fieldsPerRecord → record.length = fieldsPerRecord ∧
        reader.FieldsPerRecord = fieldsPerRecord) ∧
      (fieldsPerRecord = 0 → reader.FieldsPerRecord = record.length) := by
  unfold Reader.Read at h
  simp only [] at h
  split at h
  · simp at h
  · rename_i herr
    simp only [Prod.mk.injEq, Except.ok.injEq] at h
    obtain ⟨h1, h2⟩ := h
    subst h1 h2
    by_cases hpos : 0 < fieldsPerRecord
    · simp only [gt_iff_lt, hpos, if_true] at herr
      by_cases hlen : raw.fields.length = fieldsPerRecord
      · simp only [hlen, bne_self_eq_false, Bool.false_and, Bool.false_eq_true, if_false] at herr
        refine ⟨rfl, herr, fun _ => ⟨hlen, ?_⟩, fun h0 => by omega⟩
        simp [hpos]
      · have hne : (raw.fields.length != fieldsPerRecord) = true := by simp [hlen]
        cases hre : raw.err with
        | none => simp [hne, hre] at herr
        | some c => simp [hne, hre] at herr
    · have h0 : fieldsPerRecord = 0 := by omega
      subst h0
      simp only [gt_iff_lt, Nat.lt_irrefl, if_false] at herr
      refine ⟨rfl, herr, fun h => absurd h (Nat.lt_irrefl 0), fun _ => ?_⟩
      simp

/-- An error of `Read` while records are pending is never `io.EOF`. -/
theorem Read_cons_error (raw : RawRecord) (rest : List RawRecord) (fieldsPerRecord : Nat)
    (e : Err) (reader : Reader)
    (h : Reader.Read ⟨raw :: rest, fieldsPerRecord⟩ = (.error e, reader)) : e ≠ .eof := by
  unfold Reader.Read at h
  simp only [] at h
  split at h
  · simp only [Prod.mk.injEq, Except.error.injEq] at h
    rw [← h.1]
    simp
  · simp at h

theorem ingestLoop_cons {σ : Type} (B : Backend σ) (headers : List String) (numFields : Int)
    (addRowIndex : Bool) (raw : RawRecord) (rest : List RawRecord) (fieldsPerRecord : Nat)
    (index : Int) (collection : σ) :
    ingestLoop B headers numFields addRowIndex (raw :: rest) fieldsPerRecord index collection =
      match (Reader.Read ⟨raw :: rest, fieldsPerRecord⟩) with
      | (.error err, _) =>
        if err = .eof then ⟨none, [], collection⟩ else ⟨some err, [], collection⟩
      | (.ok record, reader) =>
        match BuildMap numFields (assembleRecord B.decode headers addRowIndex index record) with
        | .error err => ⟨some err, [], collection⟩
        | .ok node =>
          match B.insert collection node with
          | .error err => ⟨some err, [node], collection⟩
          | .ok collection =>
            ⟨(ingestLoop B headers numFields addRowIndex rest reader.FieldsPerRecord
                (toGoInt (index + 1)) collection).err,
              node :: (ingestLoop B headers numFields addRowIndex rest reader.FieldsPerRecord
                (toGoInt (index + 1)) collection).inserts,
              (ingestLoop B headers numFields addRowIndex rest reader.FieldsPerRecord
                (toGoInt (index + 1)) collection).state⟩ := by
  rfl

/-- A record that is read and built while `FieldsPerRecord` equals the number of headers
has exactly as many fields as there are headers, and leaves `FieldsPerRecord` at that. -/
theorem read_built_length (decode : String → Except Err Node) (headers : List String)
    (addRowIndex : Bool) (index : Int) (sizeHint : Int) (raw : RawRecord)
    (rest : List RawRecord) (fieldsPerRecord : Nat) (record : List String) (reader : Reader)
    (node : Node) (hfpr : fieldsPerRecord = headers.length)
    (hread : Reader.Read ⟨raw :: rest, fieldsPerRecord⟩ = (.ok record, reader))
    (hbuild : BuildMap sizeHint (assembleRecord decode headers addRowIndex index record) =
      .ok node) :
    record = raw.fields ∧ raw.err = none ∧ record.length = headers.length ∧
      reader.FieldsPerRecord = headers.length := by
  obtain ⟨h1, h2, h3, h4⟩ := Read_cons_ok raw rest fieldsPerRecord record reader hread
  obtain ⟨hb, _, _⟩ := BuildMap_ok decode headers addRowIndex index record sizeHint node hbuild
  by_cases hpos : 0 < fieldsPerRecord
  · obtain ⟨h5, h6⟩ := h3 hpos
    exact ⟨h1, h2, by omega, by omega⟩
  · have h0 : fieldsPerRecord = 0 := by omega
    have hrec : record = [] := by
      by_contra hne
      have := hb hne
      have hpos2 : 0 < record.length := List.length_pos.mpr hne
      omega
    have h7 := h4 h0
    subst hrec
    simp only [List.length_nil] at h7 ⊢
    exact ⟨h1, h2, by omega, by omega⟩

/-- The inserts of the loop of `ingestCSV`, position by position: the `k`-th node handed to
`Insert` is built from the `k`-th pending record, which has as many fields as there are
headers, with the row counter after `k` increments. When the loop ends without error every
pending record was inserted, and the final state is that of the successive inserts. -/
theorem ingestLoop_inserts {σ : Type} (B : Backend σ) (headers : List String)
    (numFields : Int) (addRowIndex : Bool) (pending : List RawRecord) (fieldsPerRecord : Nat)
    (index : Int) (collection : σ) (hfpr : fieldsPerRecord = headers.length) :
    (∀ (k : Nat) (node : Node),
      (ingestLoop B headers numFields addRowIndex pending fieldsPerRecord index
        collection).inserts[k]? = some node →
      ∃ raw, pending[k]? = some raw ∧ raw.err = none ∧
        raw.fields.length = headers.length ∧
        BuildMap numFields (assembleRecord B.decode headers addRowIndex
          ((fun i => toGoInt (i + 1))^[k] index) raw.fields) = .ok node) ∧
    ((ingestLoop B headers numFields addRowIndex pending fieldsPerRecord index
        collection).err = none →
      (ingestLoop B headers numFields addRowIndex pending fieldsPerRecord index
        collection).inserts.length = pending.length ∧
      insertAll B collection (ingestLoop B headers numFields addRowIndex pending
        fieldsPerRecord index collection).inserts =
        .ok (ingestLoop B headers numFields addRowIndex pending fieldsPerRecord index
          collection).state) := by
  induction pending generalizing fieldsPerRecord index collection with
  | nil =>
    refine ⟨fun k node h => ?_, fun _ => ⟨rfl, rfl⟩⟩
    simp [ingestLoop] at h
  | cons raw rest ih =>
    rw [ingestLoop_cons]
    rcases hread : Reader.Read ⟨raw :: rest, fieldsPerRecord⟩ with ⟨res, reader⟩
    cases res with
    | error e =>
      have hne := Read_cons_error raw rest fieldsPerRecord e reader hread
      simp only [hne, if_false]
      exact ⟨fun k node h => by simp at h, fun h => by simp at h⟩
    | ok record =>
      simp only []
      cases hbuild : BuildMap numFields
          (assembleRecord B.decode headers addRowIndex index record) with
      | error e => exact ⟨fun k node h => by simp at h, fun h => by simp at h⟩
      | ok node =>
        simp only []
        obtain ⟨hrec, herr, hlen, hfpr'⟩ := read_built_length B.decode headers addRowIndex
          index numFields raw rest fieldsPerRecord record reader node hfpr hread hbuild
        cases hins : B.insert collection node with
        | error e =>
          refine ⟨fun k nd h => ?_, fun h => by simp at h⟩
          cases k with
          | zero =>
            simp only [List.getElem?_cons_zero, Option.some.injEq] at h
            subst h
            exact ⟨raw, by simp, herr, hrec ▸ hlen, by simpa [hrec] using hbuild⟩
          | succ j => simp at h
        | ok collection' =>
          simp only []
          obtain ⟨ih1, ih2⟩ := ih reader.FieldsPerRecord (toGoInt (index + 1)) collection' hfpr'
          refine ⟨fun k nd h => ?_, fun h => ?_⟩
          · cases k with
            | zero =>
              simp only [List.getElem?_cons_zero, Option.some.injEq] at h
              subst h
              exact ⟨raw, by simp, herr, hrec ▸ hlen, by simpa [hrec] using hbuild⟩
            | succ j =>
              simp only [List.getElem?_cons_succ] at h
              obtain ⟨raw', h1, h2, h3, h4⟩ := ih1 j nd h
              exact ⟨raw', by simpa using h1, h2, h3, by simpa [Function.iterate_succ] using h4⟩
          · obtain ⟨h1, h2⟩ := ih2 h
            refine ⟨by simp [h1], ?_⟩
            simp only [insertAll, hins]
            exact h2

/-- While the counter stays below `2 ^ 63`, `k` increments of it add `k`. -/
theorem iterate_increment (k : Nat) (index : Int) (h0 : 0 ≤ index)
    (hk : index + k < 2 ^ 63) : (fun i => toGoInt (i + 1))^[k] index = index + k := by
  induction k generalizing index with
  | zero => simp
  | succ j ih =>
    have hstep : toGoInt (index + 1) = index + 1 := by
      apply toGoInt_of_int64
      · omega
      · push_cast at hk
        omega
    rw [Function.iterate_succ, Function.comp_apply, hstep, ih (index + 1) (by omega)
      (by push_cast at hk ⊢; omega)]
    push_cast
    ring

/-! ## `ingestCSV` -/

theorem ingestCSV_nil {σ : Type} (B : Backend σ) (collection : σ) (addRowIndex : Bool) :
    ingestCSV B [] collection addRowIndex = ⟨some .eof, [], collection⟩ := rfl

theorem ingestCSV_header_error {σ : Type} (B : Backend σ) (header : RawRecord)
    (rows : List RawRecord) (collection : σ) (addRowIndex : Bool) (c : CsvError)
    (h : header.err = some c) :
    ingestCSV B (header :: rows) collection addRowIndex = ⟨some (.csv c), [], collection⟩ := by
  simp [ingestCSV, NewReader, Reader.Read, h]

theorem ingestCSV_header_ok {σ : Type} (B : Backend σ) (header : RawRecord)
    (rows : List RawRecord) (collection : σ) (addRowIndex : Bool) (h : header.err = none) :
    ingestCSV B (header :: rows) collection addRowIndex =
      ingestLoop B header.fields
        (if addRowIndex then (header.fields.length : Int) + 1 else header.fields.length)
        addRowIndex rows header.fields.length 0 collection := by
  simp [ingestCSV, NewReader, Reader.Read, h]

/-- Every node `ingestCSV` hands to `Insert` is built from a data row of the input that has
as many fields as the header row. -/
theorem ingestCSV_inserts {σ : Type} (B : Backend σ) (source : List RawRecord)
    (collection : σ) (addRowIndex : Bool) (k : Nat) (node : Node)
    (h : (ingestCSV B source collection addRowIndex).inserts[k]? = some node) :
    ∃ header rows raw, source = header :: rows ∧ header.err = none ∧ rows[k]? = some raw ∧
      raw.fields.length = header.fields.length ∧
      BuildMap (if addRowIndex then (header.fields.length : Int) + 1 else header.fields.length)
        (assembleRecord B.decode header.fields addRowIndex
          ((fun i => toGoInt (i + 1))^[k] 0) raw.fields) = .ok node := by
  cases source with
  | nil => simp [ingestCSV_nil] at h
  | cons header rows =>
    cases herr : header.err with
    | some c => simp [ingestCSV_header_error B header rows collection addRowIndex c herr] at h
    | none =>
      rw [ingestCSV_header_ok B header rows collection addRowIndex herr] at h
      obtain ⟨raw, h1, _, h3, h4⟩ :=
        (ingestLoop_inserts B header.fields _ addRowIndex rows header.fields.length 0 collection
          rfl).1 k node h
      exact ⟨header, rows, raw, rfl, herr, h1, h3, h4⟩

theorem mem_zipWith_index {α β γ : Type} (f : α → β → γ) (xs : List α) (ys : List β)
    (i : Nat) (x : α) (y : β) (hx : xs[i]? = some x) (hy : ys[i]? = some y) :
    f x y ∈ List.zipWith f xs ys := by
  induction xs generalizing ys i with
  | nil => simp at hx
  | cons a as ih =>
    cases ys with
    | nil => simp at hy
    | cons b bs =>
      cases i with
      | zero =>
        simp only [List.getElem?_cons_zero, Option.some.injEq] at hx hy
        simp [hx, hy]
      | succ j =>
        simp only [List.getElem?_cons_succ] at hx hy
        simp only [List.zipWith_cons_cons, List.mem_cons]
        exact Or.inr (ih bs j hx hy)

theorem keys_zipWith (decode : String → Except Err Node) (headers record : List String)
    (h : record.length = headers.length) :
    (List.zipWith (fun header text => (header, typedValue decode text)) headers record).map
      Prod.fst = headers := by
  induction headers generalizing record with
  | nil => simp
  | cons a as ih =>
    cases record with
    | nil => simp at h
    | cons b bs =>
      simp only [List.length_cons, Nat.add_right_cancel_iff] at h
      simp [ih bs h]

/-- C2: every record `ingestCSV` hands to `Insert` is a map whose keys, in insertion order,
are `index` (exactly when `addRowIndex` is set, and then first) followed by all the names of
the header row in file order; `mapKeys` returns that sequence, so any two records of one
run have the same key sequence. -/
theorem ingestCSV_record_keys {σ : Type} (B : Backend σ) (source : List RawRecord)
    (collection : σ) (addRowIndex : Bool) (node : Node)
    (h : node ∈ (ingestCSV B source collection addRowIndex).inserts) :
    ∃ header entries, source.head? = some header ∧ node = .map entries ∧
      entries.map Prod.fst = (if addRowIndex then ["index"] else []) ++ header.fields ∧
      mapKeys node = .ok (recordKeys header.fields addRowIndex) ∧
      ∀ other ∈ (ingestCSV B source collection addRowIndex).inserts,
        mapKeys other = mapKeys node := by
  have key : ∀ nd ∈ (ingestCSV B source collection addRowIndex).inserts,
      ∃ header entries, source.head? = some header ∧ nd = .map entries ∧
        entries.map Prod.fst = (if addRowIndex then ["index"] else []) ++ header.fields := by
    intro nd hnd
    obtain ⟨k, hk⟩ := List.getElem?_of_mem hnd
    obtain ⟨header, rows, raw, hsrc, _, _, hlen, hbuild⟩ :=
      ingestCSV_inserts B source collection addRowIndex k nd hk
    obtain ⟨_, hnode, _⟩ := BuildMap_ok _ _ _ _ _ _ _ hbuild
    refine ⟨header, _, by simp [hsrc], hnode, ?_⟩
    rw [List.map_append, keys_zipWith B.decode header.fields raw.fields hlen]
    cases addRowIndex <;> simp
  obtain ⟨header, entries, h1, h2, h3⟩ := key node h
  have hkeys : (if addRowIndex then ["index"] else []) ++ header.fields =
      recordKeys header.fields addRowIndex := by
    cases addRowIndex <;> simp [recordKeys]
  refine ⟨header, entries, h1, h2, h3, ?_, ?_⟩
  · rw [h2, mapKeys_map, h3, hkeys]
  · intro other hother
    obtain ⟨header', entries', h1', h2', h3'⟩ := key other hother
    rw [h1] at h1'
    simp only [Option.some.injEq] at h1'
    subst h1'
    rw [h2, h2', mapKeys_map, mapKeys_map, h3, h3']

/-- C2, on the sample input with the row index: the keys are `index`, `name`, `age`. -/
theorem ingestCSV_record_keys_witness :
    ∃ header entries, sampleCsv.head? = some header ∧
      Node.map [("index", .int 0), ("name", .string "Ada"), ("age", .int 37)] =
        .map entries ∧
      entries.map Prod.fst = (if true then ["index"] else []) ++ header.fields ∧
      mapKeys (Node.map [("index", .int 0), ("name", .string "Ada"), ("age", .int 37)]) =
        .ok (recordKeys header.fields true) ∧
      ∀ other ∈ (ingestCSV (memBackend [] none) sampleCsv ⟨[], []⟩ true).inserts,
        mapKeys other =
          mapKeys (Node.map [("index", .int 0), ("name", .string "Ada"), ("age", .int 37)]) :=
  ingestCSV_record_keys (memBackend [] none) sampleCsv ⟨[], []⟩ true
    (.map [("index", .int 0), ("name", .string "Ada"), ("age", .int 37)])
    (List.mem_cons_self _ _)

/-- The value found under the header of a cell in a record that was built: the typed value
of the cell. -/
theorem built_cell_lookup (decode : String → Except Err Node) (headers : List String)
    (addRowIndex : Bool) (index : Int) (record : List String) (sizeHint : Int) (node : Node)
    (h : BuildMap sizeHint (assembleRecord decode headers addRowIndex index record) = .ok node)
    (i : Nat) (text : String) (htext : record[i]? = some text) :
    ∃ name, headers[i]? = some name ∧
      node.LookupByString name = .ok (typedValue decode text) := by
  obtain ⟨hlen, hnode, hnd⟩ := BuildMap_ok _ _ _ _ _ _ _ h
  have hi : i < record.length := index_lt_length _ _ _ htext
  have hne : record ≠ [] := by
    intro h0
    subst h0
    simp at hi
  have hih : i < headers.length := by
    have := hlen hne
    omega
  refine ⟨headers[i], List.getElem?_eq_getElem hih, ?_⟩
  have hmem : (headers[i], typedValue decode text) ∈
      (if addRowIndex then [("index", Node.int (toInt64 index))] else []) ++
        List.zipWith (fun header text => (header, typedValue decode text)) headers record :=
    List.mem_append_right _
      (mem_zipWith_index (fun header text => (header, typedValue decode text)) headers record i
        headers[i] text (List.getElem?_eq_getElem hih) htext)
  rw [hnode]
  simp only [Node.LookupByString, lookupEntry_of_mem _ _ _ hnd hmem]

/-- C1: in the `k`-th record `ingestCSV` hands to `Insert`, built from the `k`-th data row,
the value stored under the header of each cell is the decoded value when `dagjson.Decode`
succeeds on the cell's text, and the text itself as a string when it fails. A failed
decode is not an error of the record builder: the builder fails with the same error
whatever the decoder is, and that error is a repeated key or an out-of-range index. -/
theorem ingestCSV_cell_typing {σ : Type} (B : Backend σ) (header : RawRecord)
    (rows : List RawRecord) (collection : σ) (addRowIndex : Bool) (k : Nat) (node : Node)
    (raw : RawRecord) (i : Nat) (text : String)
    (hnode : (ingestCSV B (header :: rows) collection addRowIndex).inserts[k]? = some node)
    (hraw : rows[k]? = some raw) (htext : raw.fields[i]? = some text) :
    (∃ name, header.fields[i]? = some name ∧
      (∀ v, B.decode text = .ok v → node.LookupByString name = .ok v) ∧
      (∀ e, B.decode text = .error e → node.LookupByString name = .ok (.string text))) ∧
    (∀ (decode : String → Except Err Node) (headers : List String) (index : Int)
      (record : List String) (sizeHint : Int) (e : Err),
      BuildMap sizeHint (assembleRecord B.decode headers addRowIndex index record) = .error e →
      BuildMap sizeHint (assembleRecord decode headers addRowIndex index record) = .error e ∧
        (e = .panic "index out of range" ∨ ∃ key, e = .repeatedMapKey key)) := by
  refine ⟨?_, fun decode headers index record sizeHint e h =>
    BuildMap_error_indep B.decode decode headers addRowIndex index record sizeHint e h⟩
  obtain ⟨header', rows', raw', hsrc, _, hraw', _, hbuild⟩ :=
    ingestCSV_inserts B (header :: rows) collection addRowIndex k node hnode
  simp only [List.cons.injEq] at hsrc
  obtain ⟨h1, h2⟩ := hsrc
  subst h1 h2
  rw [hraw] at hraw'
  simp only [Option.some.injEq] at hraw'
  subst hraw'
  obtain ⟨name, hname, hlook⟩ := built_cell_lookup _ _ _ _ _ _ _ hbuild i text htext
  refine ⟨name, hname, fun v hv => ?_, fun e he => ?_⟩
  · simpa [typedValue, hv] using hlook
  · simpa [typedValue, he] using hlook

/-- C1, on the first data row of the sample input: the cell `Ada`, which does not decode,
is stored as a string under `name`. -/
theorem ingestCSV_cell_typing_witness :
    ∃ name, ["name", "age"][0]? = some name ∧
      (∀ v, sampleDecode "Ada" = .ok v →
        (Node.map [("name", .string "Ada"), ("age", .int 37)]).LookupByString name = .ok v) ∧
      (∀ e, sampleDecode "Ada" = .error e →
        (Node.map [("name", .string "Ada"), ("age", .int 37)]).LookupByString name =
          .ok (.string "Ada")) :=
  (ingestCSV_cell_typing (memBackend [] none) ⟨["name", "age"], none⟩
    [⟨["Ada", "37"], none⟩, ⟨["Grace", "34"], none⟩] ⟨[], []⟩ false 0
    (.map [("name", .string "Ada"), ("age", .int 37)]) ⟨["Ada", "37"], none⟩ 0 "Ada"
    rfl rfl rfl).1

/-- C6: when `ingestCSV` runs with `addRowIndex` set over a header row and `N` data rows
(`N` at most `2 ^ 63`) and returns no error, exactly `N` records are inserted, each insert
succeeds, the `k`-th inserted record is the one built from the `k`-th data row, and its
`index` field is the integer `k`. -/
theorem ingestCSV_row_index {σ : Type} (B : Backend σ) (header : RawRecord)
    (rows : List RawRecord) (collection : σ) (hrows : (rows.length : Int) ≤ 2 ^ 63)
    (herr : (ingestCSV B (header :: rows) collection true).err = none) :
    (ingestCSV B (header :: rows) collection true).inserts.length = rows.length ∧
      insertAll B collection (ingestCSV B (header :: rows) collection true).inserts =
        .ok (ingestCSV B (header :: rows) collection true).state ∧
      ∀ (k : Nat) (raw : RawRecord), rows[k]? = some raw →
        ∃ node, (ingestCSV B (header :: rows) collection true).inserts[k]? = some node ∧
          BuildMap ((header.fields.length : Int) + 1)
            (assembleRecord B.decode header.fields true k raw.fields) = .ok node ∧
          node.LookupByString "index" = .ok (.int k) := by
  cases hherr : header.err with
  | some c => simp [ingestCSV_header_error B header rows collection true c hherr] at herr
  | none =>
    rw [ingestCSV_header_ok B header rows collection true hherr] at herr ⊢
    simp only [if_true] at herr ⊢
    obtain ⟨h1, h2⟩ := ingestLoop_inserts B header.fields ((header.fields.length : Int) + 1) true
      rows header.fields.length 0 collection rfl
    obtain ⟨hlen, hall⟩ := h2 herr
    refine ⟨hlen, hall, fun k raw hraw => ?_⟩
    have hk : k < rows.length := index_lt_length _ _ _ hraw
    have hk2 : k < (ingestLoop B header.fields ((header.fields.length : Int) + 1) true rows
        header.fields.length 0 collection).inserts.length := by omega
    obtain ⟨raw', hraw', _, _, hbuild⟩ := h1 k _ (List.getElem?_eq_getElem hk2)
    rw [hraw] at hraw'
    simp only [Option.some.injEq] at hraw'
    subst hraw'
    have hkz : (k : Int) < 2 ^ 63 := by
      have : (k : Int) < rows.length := by exact_mod_cast hk
      omega
    rw [iterate_increment k 0 (le_refl 0) (by simpa using hkz)] at hbuild
    simp only [zero_add] at hbuild
    refine ⟨_, List.getElem?_eq_getElem hk2, hbuild, ?_⟩
    obtain ⟨_, hnode, _⟩ := BuildMap_ok _ _ _ _ _ _ _ hbuild
    rw [hnode]
    have hw : toInt64 (k : Int) = k := wrapSigned_of_int64 _ (by omega) hkz
    simp [Node.LookupByString, lookupEntry, hw]

/-- C6, on the sample input: two data rows give two records with `index` 0 and 1. -/
theorem ingestCSV_row_index_witness :
    (ingestCSV (memBackend [] none) sampleCsv ⟨[], []⟩ true).inserts.length = 2 :=
  (ingestCSV_row_index (memBackend [] none) ⟨["name", "age"], none⟩
    [⟨["Ada", "37"], none⟩, ⟨["Grace", "34"], none⟩] ⟨[], []⟩ (by norm_num) rfl).1

/-- C9: let a cell of the `k`-th data row hold a text that decodes to the integer `n`, an
`int64`. In the `k`-th record `ingestCSV` hands to `Insert` the cell's header leads to the
integer `n`, and the lookup and conversion `Dump` performs for that column succeed with
the decimal text of `n`. -/
theorem integer_round_trip {σ : Type} (B : Backend σ) (header : RawRecord)
    (rows : List RawRecord) (collection : σ) (addRowIndex : Bool) (k : Nat) (node : Node)
    (raw : RawRecord) (i : Nat) (text : String) (n : Int)
    (hnode : (ingestCSV B (header :: rows) collection addRowIndex).inserts[k]? = some node)
    (hraw : rows[k]? = some raw) (htext : raw.fields[i]? = some text)
    (hdec : B.decode text = .ok (.int n)) (lo : -2 ^ 63 ≤ n) (hi : n < 2 ^ 63) :
    ∃ name, header.fields[i]? = some name ∧
      node.LookupByString name = .ok (.int n) ∧
      valueAsString (.int n) = .ok (Itoa n) ∧
      fillRow node [name] 0 [""] = .ok [Itoa n] ∧
      Itoa n = toString n := by
  obtain ⟨header', rows', raw', hsrc, _, hraw', _, hbuild⟩ :=
    ingestCSV_inserts B (header :: rows) collection addRowIndex k node hnode
  simp only [List.cons.injEq] at hsrc
  obtain ⟨h1, h2⟩ := hsrc
  subst h1 h2
  rw [hraw] at hraw'
  simp only [Option.some.injEq] at hraw'
  subst hraw'
  obtain ⟨name, hname, hlook⟩ := built_cell_lookup _ _ _ _ _ _ _ hbuild i text htext
  have htv : typedValue B.decode text = .int n := by simp [typedValue, hdec]
  rw [htv] at hlook
  have hval : valueAsString (.int n) = .ok (Itoa n) := valueAsString_int n lo hi
  refine ⟨name, hname, hlook, hval, ?_, Itoa_eq_toString n⟩
  simp [fillRow, hlook, hval]

/-- C9, on the sample input: the cell `37` of the first data row comes back as `37`. -/
theorem integer_round_trip_witness :
    ∃ name, ["name", "age"][1]? = some name ∧
      (Node.map [("name", .string "Ada"), ("age", .int 37)]).LookupByString name =
        .ok (.int 37) ∧
      valueAsString (.int 37) = .ok "37" ∧
      fillRow (Node.map [("name", .string "Ada"), ("age", .int 37)]) [name] 0 [""] =
        .ok ["37"] ∧
      Itoa 37 = toString (37 : Int) :=
  integer_round_trip (memBackend [] none) ⟨["name", "age"], none⟩
    [⟨["Ada", "37"], none⟩, ⟨["Grace", "34"], none⟩] ⟨[], []⟩ false 0
    (.map [("name", .string "Ada"), ("age", .int 37)]) ⟨["Ada", "37"], none⟩ 1 "37" 37
    rfl rfl rfl rfl (by decide) (by decide)

/-! ## `Ingest` -/

/-- C8: in a run of `Ingest` that returns no error, the calls made are, in this order:
`OpenReadWrite` with the placeholder as the only root, `NewDatabaseFromBlockStore`, the
lookup of the collection, `CreateIndex("index")` when `addRowIndex` is set, the inserts of
`ingestCSV`, `ApplyChanges`, `RootCid`, `Finalize`, and `ReplaceRootsInFile` with the one
identifier `RootCid` gave on the state left by `ApplyChanges`. `ApplyChanges` thus occurs
once, after every insert, and the header ends up holding that identifier. -/
theorem Ingest_success_sequence {σ : Type} (B : Backend σ) (output : String)
    (reader : List RawRecord) (collectionName : String) (addRowIndex : Bool)
    (hok : (Ingest B output reader collectionName addRowIndex).err = none) :
    ∃ defaultCid blockstore db collection collection' applied,
      B.decodeCid EMPTY_DB_ROOT = .ok defaultCid ∧
      B.openReadWrite output [defaultCid] = .ok blockstore ∧
      B.newDatabaseFromBlockStore blockstore = .ok db ∧
      B.collection db collectionName = .ok collection ∧
      (if addRowIndex then B.createIndex collection "index" else .ok collection) =
        .ok collection' ∧
      (ingestCSV B reader collection' addRowIndex).err = none ∧
      B.applyChanges (ingestCSV B reader collection' addRowIndex).state = .ok applied ∧
      (Ingest B output reader collectionName addRowIndex).calls =
        [Call.openReadWrite output [defaultCid], Call.newDatabaseFromBlockStore,
          Call.collection collectionName] ++
        (if addRowIndex then [Call.createIndex "index"] else []) ++
        (ingestCSV B reader collection' addRowIndex).inserts.map Call.insert ++
        [Call.applyChanges, Call.rootCid, Call.finalize,
          Call.replaceRootsInFile output [B.rootCid applied]] ∧
      (Ingest B output reader collectionName addRowIndex).header = some [B.rootCid applied] ∧
      (Ingest B output reader collectionName addRowIndex).printed = [B.rootCid applied] := by
  cases h0 : B.decodeCid EMPTY_DB_ROOT with
  | error e => simp [Ingest, h0] at hok
  | ok defaultCid =>
  cases h1 : B.openReadWrite output [defaultCid] with
  | error e => simp [Ingest, h0, h1] at hok
  | ok blockstore =>
  cases h2 : B.newDatabaseFromBlockStore blockstore with
  | error e => simp [Ingest, h0, h1, h2] at hok
  | ok db =>
  cases h3 : B.collection db collectionName with
  | error e => simp [Ingest, h0, h1, h2, h3] at hok
  | ok collection =>
  cases h4 : (if addRowIndex then B.createIndex collection "index" else .ok collection) with
  | error e => simp [Ingest, h0, h1, h2, h3, h4] at hok
  | ok collection' =>
  cases h5 : (ingestCSV B reader collection' addRowIndex).err with
  | some e => simp [Ingest, h0, h1, h2, h3, h4, h5] at hok
  | none =>
  cases h6 : B.applyChanges (ingestCSV B reader collection' addRowIndex).state with
  | error e => simp [Ingest, h0, h1, h2, h3, h4, h5, h6] at hok
  | ok applied =>
  cases h7 : B.finalize applied with
  | error e => simp [Ingest, h0, h1, h2, h3, h4, h5, h6, h7] at hok
  | ok final =>
  cases h8 : B.replaceRootsInFile final output [B.rootCid applied] with
  | error e => simp [Ingest, h0, h1, h2, h3, h4, h5, h6, h7, h8] at hok
  | ok done =>
    refine ⟨defaultCid, blockstore, db, collection, collection', applied, rfl, h1, h2, h3, h4,
      h5, h6, ?_, ?_, ?_⟩
    · simp only [Ingest, h0, h1, h2, h3, h4, h5, h6, h7, h8]
      cases addRowIndex <;> simp
    · simp only [Ingest, h0, h1, h2, h3, h4, h5, h6, h7, h8]
    · simp only [Ingest, h0, h1, h2, h3, h4, h5, h6, h7, h8]

/-- C8, on the in-memory backend and the sample input: the header ends with the root
computed after the two inserts. -/
theorem Ingest_success_sequence_witness :
    ∃ defaultCid blockstore db collection collection' applied,
      (memBackend [] none).decodeCid EMPTY_DB_ROOT = .ok defaultCid ∧
      (memBackend [] none).openReadWrite "out" [defaultCid] = .ok blockstore ∧
      (memBackend [] none).newDatabaseFromBlockStore blockstore = .ok db ∧
      (memBackend [] none).collection db "default" = .ok collection ∧
      (if true then (memBackend [] none).createIndex collection "index" else .ok collection) =
        .ok collection' ∧
      (ingestCSV (memBackend [] none) sampleCsv collection' true).err = none ∧
      (memBackend [] none).applyChanges
        (ingestCSV (memBackend [] none) sampleCsv collection' true).state = .ok applied ∧
      (Ingest (memBackend [] none) "out" sampleCsv "default" true).calls =
        [Call.openReadWrite "out" [defaultCid], Call.newDatabaseFromBlockStore,
          Call.collection "default"] ++
        (if true then [Call.createIndex "index"] else []) ++
        (ingestCSV (memBackend [] none) sampleCsv collection' true).inserts.map Call.insert ++
        [Call.applyChanges, Call.rootCid, Call.finalize,
          Call.replaceRootsInFile "out" [(memBackend [] none).rootCid applied]] ∧
      (Ingest (memBackend [] none) "out" sampleCsv "default" true).header =
        some [(memBackend [] none).rootCid applied] ∧
      (Ingest (memBackend [] none) "out" sampleCsv "default" true).printed =
        [(memBackend [] none).rootCid applied] :=
  Ingest_success_sequence (memBackend [] none) "out" sampleCsv "default" true rfl

end Ipti
